import Mathlib

/-!
Verification development for a pair of Python blockchain implementations
(`main.py`: `Block` / `SmartCityBlockchain`, and `prajwal.py`: `CryptoBlock` /
`SecureChain`).  The development shallowly embeds the two modules:

* `Crypto` models `hashlib.sha256(...).hexdigest()`: a complete, executable
  SHA-256 over byte lists, with the digest rendered as 64 lowercase hex
  characters.  Python floats (`time.time()`) are abstracted as natural-number
  timestamps; this affects only which byte strings get hashed, never the
  structure of any statement proved here.
* `Js` models `json.dumps(..., sort_keys=True)`: canonical serialization of a
  JSON-like value tree with object keys sorted by code-point order (Python
  string comparison), default separators `", "` and `": "`, and the standard
  escaping of `"` , `\`, control characters and non-ASCII characters
  (characters beyond the basic multilingual plane are rendered as a single
  `\uXXXX` group rather than a surrogate pair; all data in the claims is
  ASCII).  JSON numbers are restricted to naturals, which covers every value
  the embedded operations ever serialize.
* `Main` embeds `main.py`, `Prajwal` embeds `prajwal.py`.

Stateful Python methods become state-passing functions; `time.time()` becomes
an explicit timestamp argument; the unbounded mining loop becomes a
fuel-indexed search; raised exceptions become `Except`/`Option` results.
-/

namespace Crypto

/-- Modulus for 32-bit words (`2 ^ 32`). -/
def w32 : Nat := 4294967296

/-- Right rotation of a 32-bit word. -/
def rotr (x n : Nat) : Nat := (x >>> n) ||| ((x <<< (32 - n)) % w32)

/-- SHA-256 round constants (fractional parts of the cube roots of the first
64 primes, 32 bits each). -/
def roundK : List Nat :=
  [1116352408, 1899447441, 3049323471, 3921009573, 961987163, 1508970993, 2453635748, 2870763221,
   3624381080, 310598401, 607225278, 1426881987, 1925078388, 2162078206, 2614888103, 3248222580,
   3835390401, 4022224774, 264347078, 604807628, 770255983, 1249150122, 1555081692, 1996064986,
   2554220882, 2821834349, 2952996808, 3210313671, 3336571891, 3584528711, 113926993, 338241895,
   666307205, 773529912, 1294757372, 1396182291, 1695183700, 1986661051, 2177026350, 2456956037,
   2730485921, 2820302411, 3259730800, 3345764771, 3516065817, 3600352804, 4094571909, 275423344,
   430227734, 506948616, 659060556, 883997877, 958139571, 1322822218, 1537002063, 1747873779,
   1955562222, 2024104815, 2227730452, 2361852424, 2428436474, 2756734187, 3204031479, 3329325298]

/-- The eight 32-bit words of SHA-256 working state. -/
structure S8 where
  a : Nat
  b : Nat
  c : Nat
  d : Nat
  e : Nat
  f : Nat
  g : Nat
  h : Nat

/-- SHA-256 `Ch` function (bitwise choice). -/
def chf (e f g : Nat) : Nat := (e &&& f) ^^^ ((e ^^^ 4294967295) &&& g)

/-- SHA-256 `Maj` function (bitwise majority). -/
def majf (a b c : Nat) : Nat := (a &&& b) ^^^ (a &&& c) ^^^ (b &&& c)

/-- Big sigma-0 compression function. -/
def bigSigma0 (x : Nat) : Nat := rotr x 2 ^^^ rotr x 13 ^^^ rotr x 22

/-- Big sigma-1 compression function. -/
def bigSigma1 (x : Nat) : Nat := rotr x 6 ^^^ rotr x 11 ^^^ rotr x 25

/-- Small sigma-0 message-schedule function. -/
def smallSigma0 (x : Nat) : Nat := rotr x 7 ^^^ rotr x 18 ^^^ (x >>> 3)

/-- Small sigma-1 message-schedule function. -/
def smallSigma1 (x : Nat) : Nat := rotr x 17 ^^^ rotr x 19 ^^^ (x >>> 10)

/-- Extend the 16 chunk words by `n` further schedule words.  The word list is
kept newest-first, so `W[t-16]`, `W[t-15]`, `W[t-7]`, `W[t-2]` are positions
15, 14, 6, 1. -/
def extendW : Nat → List Nat → List Nat
  | 0, rws => rws
  | n+1, rws =>
      let nw := (rws.getD 15 0 + smallSigma0 (rws.getD 14 0) + rws.getD 6 0
                 + smallSigma1 (rws.getD 1 0)) % w32
      extendW n (nw :: rws)

/-- One SHA-256 compression round; `kw` is the pair of round constant and
schedule word. -/
def round1 (s : S8) (kw : Nat × Nat) : S8 :=
  let t1 := (s.h + bigSigma1 s.e + chf s.e s.f s.g + kw.1 + kw.2) % w32
  let t2 := (bigSigma0 s.a + majf s.a s.b s.c) % w32
  { a := (t1 + t2) % w32, b := s.a, c := s.b, d := s.c,
    e := (s.d + t1) % w32, f := s.e, g := s.f, h := s.g }

/-- Group bytes into big-endian 32-bit words. -/
def bytesToWords : List Nat → List Nat
  | b0 :: b1 :: b2 :: b3 :: rest => (((b0 * 256 + b1) * 256 + b2) * 256 + b3) :: bytesToWords rest
  | _ => []

/-- Compress one 64-byte chunk into the running state. -/
def compress (st : S8) (chunkBytes : List Nat) : S8 :=
  let ws16 := bytesToWords chunkBytes
  let ws := (extendW 48 ws16.reverse).reverse
  let f := (roundK.zip ws).foldl round1 st
  { a := (st.a + f.a) % w32, b := (st.b + f.b) % w32, c := (st.c + f.c) % w32,
    d := (st.d + f.d) % w32, e := (st.e + f.e) % w32, f := (st.f + f.f) % w32,
    g := (st.g + f.g) % w32, h := (st.h + f.h) % w32 }

/-- SHA-256 initial state (fractional parts of the square roots of the first
eight primes). -/
def initState : S8 :=
  ⟨1779033703, 3144134277, 1013904242, 2773480762, 1359893119, 2600822924, 528734635, 1541459225⟩

/-- Process `n` 64-byte chunks of the padded message. -/
def processChunks : Nat → List Nat → S8 → S8
  | 0, _, st => st
  | n+1, bytes, st => processChunks n (bytes.drop 64) (compress st (bytes.take 64))

/-- Big-endian byte rendering of `n` in exactly `w` bytes. -/
def lenBytesBE : Nat → Nat → List Nat
  | 0, _ => []
  | w+1, n => lenBytesBE w (n / 256) ++ [n % 256]

/-- SHA-256 padding: a `0x80` byte, zeros to 56 mod 64, then the bit length in
8 big-endian bytes. -/
def pad (msg : List Nat) : List Nat :=
  let l := msg.length
  msg ++ (128 :: List.replicate ((119 - (l % 64)) % 64) 0) ++ lenBytesBE 8 (8 * l)

/-- Run the full SHA-256 state machine over a byte message. -/
def sha256State (msg : List Nat) : S8 :=
  let p := pad msg
  processChunks (p.length / 64) p initState

/-- Collapse the final state into the 256-bit digest value. -/
def digestNat (s : S8) : Nat :=
  ((((((s.a % w32 * w32 + s.b % w32) * w32 + s.c % w32) * w32 + s.d % w32) * w32
      + s.e % w32) * w32 + s.f % w32) * w32 + s.g % w32) * w32 + s.h % w32

/-- Hex digit characters, lowercase as produced by `hexdigest()`. -/
def hexDigit (n : Nat) : Char := "0123456789abcdef".data.getD n '0'

/-- Big-endian hex rendering of `n` in exactly `w` digits. -/
def hexAux : Nat → Nat → List Char
  | 0, _ => []
  | w+1, n => hexAux w (n / 16) ++ [hexDigit (n % 16)]

/-- UTF-8 encoding of one character (`str.encode()` in Python). -/
def utf8EncodeChar (c : Char) : List Nat :=
  let n := c.toNat
  if n < 128 then [n]
  else if n < 2048 then [192 + n / 64, 128 + n % 64]
  else if n < 65536 then [224 + n / 4096, 128 + (n / 64) % 64, 128 + n % 64]
  else [240 + n / 262144, 128 + (n / 4096) % 64, 128 + (n / 64) % 64, 128 + n % 64]

/-- UTF-8 encoding of a character list. -/
def utf8Bytes : List Char → List Nat
  | [] => []
  | c :: cs => utf8EncodeChar c ++ utf8Bytes cs

/-- Digest of a string as a 256-bit natural number. -/
def sha256Nat (s : String) : Nat := digestNat (sha256State (utf8Bytes s.data))

/-- Model of `hashlib.sha256(s.encode()).hexdigest()`. -/
def sha256 (s : String) : String := String.mk (hexAux 64 (sha256Nat s))

theorem hexAux_length (w n : Nat) : (hexAux w n).length = w := by
  induction w generalizing n with
  | zero => rfl
  | succ w ih => simp [hexAux, ih]

theorem sha256_length (s : String) : (sha256 s).length = 64 := by
  simp [sha256, String.length, hexAux_length]

theorem w32_pos : 0 < w32 := by decide

/-- Stacking step for the digest bound. -/
theorem stack_lt {x y bound : Nat} (hx : x < bound) (hy : y < w32) :
    x * w32 + y < bound * w32 := by
  have hx' : x + 1 ≤ bound := hx
  calc x * w32 + y < (x + 1) * w32 := by
        have := w32_pos
        nlinarith
    _ ≤ bound * w32 := Nat.mul_le_mul_right _ hx'

theorem digestNat_lt (s : S8) : digestNat s < 2 ^ 256 := by
  have m : ∀ x : Nat, x % w32 < w32 := fun x => Nat.mod_lt _ w32_pos
  have h1 : s.a % w32 < w32 := m _
  have h2 := stack_lt h1 (m s.b)
  have h3 := stack_lt h2 (m s.c)
  have h4 := stack_lt h3 (m s.d)
  have h5 := stack_lt h4 (m s.e)
  have h6 := stack_lt h5 (m s.f)
  have h7 := stack_lt h6 (m s.g)
  have h8 := stack_lt h7 (m s.h)
  have : w32 * w32 * w32 * w32 * w32 * w32 * w32 * w32 = 2 ^ 256 := by decide
  calc digestNat s < w32 * w32 * w32 * w32 * w32 * w32 * w32 * w32 := by
        simpa [digestNat, Nat.mul_assoc, Nat.mul_comm, Nat.mul_left_comm] using h8
    _ = 2 ^ 256 := this

theorem sha256Nat_lt (s : String) : sha256Nat s < 2 ^ 256 := digestNat_lt _

end Crypto

namespace Js

/-- JSON-like values as serialized by `json.dumps`.  Objects keep their
insertion order (Python dicts are ordered), which `sort_keys=True` then
discards.  Numbers are restricted to naturals: every number the embedded
operations serialize is a natural (indices, nonces and the abstracted
timestamps). -/
inductive Json where
  | num (n : Nat)
  | str (s : String)
  | arr (elems : List Json)
  | obj (entries : List (String × Json))

/-- Escape one character inside a JSON string, following `json.dumps` with its
default `ensure_ascii=True`: two-character shortcuts for quote, backslash and
the common control characters, `\uXXXX` groups for other control characters
and all non-ASCII characters (a character beyond the basic multilingual plane
is abstracted as one `\uXXXX` group; every string in the claims is ASCII). -/
def escapeChar (c : Char) : List Char :=
  if c = '"' then ['\\', '"']
  else if c = '\\' then ['\\', '\\']
  else if c.toNat = 8 then ['\\', 'b']
  else if c.toNat = 9 then ['\\', 't']
  else if c.toNat = 10 then ['\\', 'n']
  else if c.toNat = 12 then ['\\', 'f']
  else if c.toNat = 13 then ['\\', 'r']
  else if c.toNat < 32 ∨ 127 ≤ c.toNat then '\\' :: 'u' :: Crypto.hexAux 4 c.toNat
  else [c]

/-- Escape every character of a string body. -/
def escapeList : List Char → List Char
  | [] => []
  | c :: cs => escapeChar c ++ escapeList cs

/-- JSON string literal rendering: `"` + escaped body + `"`. -/
def quoteStr (s : String) : String := String.mk ('"' :: (escapeList s.data ++ ['"']))

/-- Join rendered fragments with a separator (`", "` in `json.dumps`
default). -/
def joinSep (sep : String) : List String → String
  | [] => ""
  | [x] => x
  | x :: xs => x ++ sep ++ joinSep sep xs

/-- Python string comparison, lexicographic by code point, as a boolean.
`sorted(dict)` in `json.dumps(..., sort_keys=True)` orders keys this way. -/
def lexLeB : List Char → List Char → Bool
  | [], _ => true
  | _ :: _, [] => false
  | a :: as, b :: bs =>
      if a.toNat < b.toNat then true
      else if b.toNat < a.toNat then false
      else lexLeB as bs

/-- Key order on rendered object entries used by `sort_keys=True`. -/
def keyLe (p q : String × String) : Prop := lexLeB p.1.data q.1.data = true

instance : DecidableRel keyLe := fun _ _ => inferInstanceAs (Decidable (_ = true))

mutual

/-- Model of `json.dumps(value, sort_keys=True)` with default separators. -/
def dumps : Json → String
  | .num n => Nat.repr n
  | .str s => quoteStr s
  | .arr elems => "[" ++ joinSep ", " (dumpsList elems) ++ "]"
  | .obj entries =>
      let sorted := List.insertionSort keyLe (renderEntries entries)
      "\x7b" ++ joinSep ", " (sorted.map (fun kv => quoteStr kv.1 ++ ": " ++ kv.2)) ++ "\x7d"
termination_by structural j => j

/-- Serialize the elements of an array. -/
def dumpsList : List Json → List String
  | [] => []
  | j :: js => dumps j :: dumpsList js
termination_by structural l => l

/-- Serialize the values of object entries, keeping the keys for sorting. -/
def renderEntries : List (String × Json) → List (String × String)
  | [] => []
  | (k, v) :: kvs => (k, dumps v) :: renderEntries kvs
termination_by structural l => l

end

theorem renderEntries_eq_map (e : List (String × Json)) :
    renderEntries e = e.map (fun kv => (kv.1, dumps kv.2)) := by
  induction e with
  | nil => rfl
  | cons kv t ih => cases kv; simp [renderEntries, ih]

theorem char_eq_of_toNat_eq {a b : Char} (h : a.toNat = b.toNat) : a = b := by
  rw [← Char.ofNat_toNat a, ← Char.ofNat_toNat b, h]

theorem lexLeB_total (a b : List Char) : lexLeB a b = true ∨ lexLeB b a = true := by
  induction a generalizing b with
  | nil => left; rfl
  | cons x xs ih =>
      cases b with
      | nil => right; rfl
      | cons y ys =>
          by_cases hxy : x.toNat < y.toNat
          · left; simp [lexLeB, hxy]
          · by_cases hyx : y.toNat < x.toNat
            · right; simp [lexLeB, hyx]
            · rcases ih ys with h | h
              · left; simp [lexLeB, hxy, hyx, h]
              · right; simp [lexLeB, hxy, hyx, h]

theorem lexLeB_cons {x y : Char} {xs ys : List Char} :
    lexLeB (x :: xs) (y :: ys) = true ↔
      (x.toNat < y.toNat ∨ (x.toNat = y.toNat ∧ lexLeB xs ys = true)) := by
  by_cases h1 : x.toNat < y.toNat
  · simp [lexLeB, h1]
  · by_cases h2 : y.toNat < x.toNat
    · simp [lexLeB, h1, h2]; omega
    · have hxy : x.toNat = y.toNat := by omega
      simp [lexLeB, h1, h2, hxy]

theorem lexLeB_trans {a b c : List Char} (hab : lexLeB a b = true)
    (hbc : lexLeB b c = true) : lexLeB a c = true := by
  induction a generalizing b c with
  | nil => rfl
  | cons x xs ih =>
      cases b with
      | nil => simp [lexLeB] at hab
      | cons y ys =>
          cases c with
          | nil => simp [lexLeB] at hbc
          | cons z zs =>
              rw [lexLeB_cons] at hab hbc ⊢
              rcases hab with h | ⟨he, hr⟩ <;> rcases hbc with h' | ⟨he', hr'⟩
              · left; omega
              · left; omega
              · left; omega
              · exact Or.inr ⟨by omega, ih hr hr'⟩

theorem lexLeB_antisymm {a b : List Char} (hab : lexLeB a b = true)
    (hba : lexLeB b a = true) : a = b := by
  induction a generalizing b with
  | nil =>
      cases b with
      | nil => rfl
      | cons y ys => simp [lexLeB] at hba
  | cons x xs ih =>
      cases b with
      | nil => simp [lexLeB] at hab
      | cons y ys =>
          rw [lexLeB_cons] at hab hba
          rcases hab with h | ⟨he, hr⟩ <;> rcases hba with h' | ⟨he', hr'⟩
          · omega
          · omega
          · omega
          · rw [char_eq_of_toNat_eq he, ih hr hr']

end Js

namespace Js

theorem string_eq_of_data_eq {s t : String} (h : s.data = t.data) : s = t := by
  cases s; cases t; exact congrArg String.mk h

instance : IsTotal (String × String) keyLe :=
  ⟨fun p q => lexLeB_total p.1.data q.1.data⟩

instance : IsTrans (String × String) keyLe :=
  ⟨fun _ _ _ hab hbc => lexLeB_trans hab hbc⟩

/-- Strict version of the key order, used to recover uniqueness of the sorted
entry list when keys are distinct. -/
def keyLt (p q : String × String) : Prop := keyLe p q ∧ p.1 ≠ q.1

instance : IsAntisymm (String × String) keyLt :=
  ⟨fun _ _ hab hba =>
    absurd (string_eq_of_data_eq (lexLeB_antisymm hab.1 hba.1)) hab.2⟩

theorem sorted_keyLt {l : List (String × String)} (hs : List.Sorted keyLe l)
    (hnd : (l.map Prod.fst).Nodup) : List.Sorted keyLt l := by
  have hne : l.Pairwise (fun p q : String × String => p.1 ≠ q.1) :=
    List.pairwise_map.mp hnd
  exact hs.and hne

/-- Sorting by key is insensitive to the input order when keys are distinct:
the canonicalization property behind `sort_keys=True`. -/
theorem insertionSort_eq_of_perm {e₁ e₂ : List (String × String)} (hp : e₁.Perm e₂)
    (hnd : (e₁.map Prod.fst).Nodup) :
    List.insertionSort keyLe e₁ = List.insertionSort keyLe e₂ := by
  have hp1 := List.perm_insertionSort keyLe e₁
  have hp2 := List.perm_insertionSort keyLe e₂
  have hperm : (List.insertionSort keyLe e₁).Perm (List.insertionSort keyLe e₂) :=
    hp1.trans (hp.trans hp2.symm)
  have hnd1 : ((List.insertionSort keyLe e₁).map Prod.fst).Nodup :=
    ((hp1.map Prod.fst).symm).nodup hnd
  have hnd2 : ((List.insertionSort keyLe e₂).map Prod.fst).Nodup :=
    (hperm.map Prod.fst).nodup hnd1
  exact List.eq_of_perm_of_sorted hperm
    (sorted_keyLt (List.sorted_insertionSort keyLe e₁) hnd1)
    (sorted_keyLt (List.sorted_insertionSort keyLe e₂) hnd2)

/-- Serializing an object ignores the insertion order of its entries, provided
the keys are distinct (they always are for a Python dict). -/
theorem dumps_obj_perm {e₁ e₂ : List (String × Json)} (hp : e₁.Perm e₂)
    (hnd : (e₁.map Prod.fst).Nodup) : dumps (Json.obj e₁) = dumps (Json.obj e₂) := by
  have h1 : (renderEntries e₁).Perm (renderEntries e₂) := by
    rw [renderEntries_eq_map, renderEntries_eq_map]; exact hp.map _
  have hk : ((renderEntries e₁).map Prod.fst).Nodup := by
    rw [renderEntries_eq_map, List.map_map]
    simpa [Function.comp] using hnd
  simp only [dumps, insertionSort_eq_of_perm h1 hk]

end Js

namespace Main

open Js

/-- Embedding of `Block` from `main.py`.  The stored `hash` is an ordinary
field because `__init__` assigns `self.hash = self.calculate_hash()`; the
tampering scenarios overwrite other fields while leaving `hash` untouched. -/
structure Block where
  index : Nat
  timestamp : Nat
  data : Json
  previous_hash : String
  hash : String

/-- Digest of a block's contents: exactly the dictionary hashed by
`Block.calculate_hash` (under `sort_keys=True` the keys serialize in the
order `data`, `index`, `previous_hash`, `timestamp`). -/
def hashFields (index timestamp : Nat) (data : Json) (previous_hash : String) : String :=
  Crypto.sha256 (dumps (Json.obj
    [("index", Json.num index), ("timestamp", Json.num timestamp),
     ("data", data), ("previous_hash", Json.str previous_hash)]))

/-- Model of `Block.calculate_hash`: recompute the digest from the current
fields, ignoring the stored `hash`. -/
def Block.calculate_hash (b : Block) : String :=
  hashFields b.index b.timestamp b.data b.previous_hash

/-- Model of the `Block` constructor, which computes and stores the digest
immediately. -/
def mkBlock (index timestamp : Nat) (data : Json) (previous_hash : String) : Block :=
  { index := index, timestamp := timestamp, data := data, previous_hash := previous_hash,
    hash := hashFields index timestamp data previous_hash }

/-- State of a `SmartCityBlockchain`: the chain and the pending-data buffer. -/
structure SmartCityBlockchain where
  chain : List Block
  pending_data : List Json

/-- The genesis block built by `initialize_genesis_block`. -/
def genesis_block (ts : Nat) : Block :=
  mkBlock 0 ts (Json.obj [("message", Json.str "Genesis Block for Smart City")]) "0"

/-- Model of `SmartCityBlockchain.__init__` (which calls
`initialize_genesis_block`); `ts` is the genesis timestamp. -/
def init (ts : Nat) : SmartCityBlockchain := ⟨[genesis_block ts], []⟩

/-- The record dictionary built by `add_data`, with its insertion order. -/
def pendingRecord (sender record_type : String) (details : Json) (ts : Nat) : Json :=
  Json.obj [("sender", Json.str sender), ("type", Json.str record_type),
            ("details", details), ("timestamp", Json.num ts)]

/-- Model of `SmartCityBlockchain.add_data`. -/
def add_data (s : SmartCityBlockchain) (sender record_type : String) (details : Json)
    (ts : Nat) : SmartCityBlockchain :=
  { s with pending_data := s.pending_data ++ [pendingRecord sender record_type details ts] }

/-- Model of `SmartCityBlockchain.mine_block`.  The pair holds the state after
the call and the Python outcome: `Except.error` is a raised exception (the
`ValueError` when the pending buffer is empty, or the `IndexError` that
`self.last_block` would raise on an empty chain), `Except.ok` is the returned
block.  The raise happens before any mutation, so the state component is the
input state in the error cases. -/
def mine_block (s : SmartCityBlockchain) (ts : Nat) :
    SmartCityBlockchain × Except String Block :=
  if s.pending_data.isEmpty then (s, Except.error "No pending data to mine")
  else
    match s.chain.getLast? with
    | none => (s, Except.error "list index out of range")
    | some last =>
        let new_block := mkBlock s.chain.length ts
          (Json.obj [("transactions", Json.arr s.pending_data)]) last.hash
        ({ chain := s.chain ++ [new_block], pending_data := [] }, Except.ok new_block)

/-- The two checks of the validator loop. -/
inductive Violation where
  | digest
  | linkage
deriving DecidableEq

/-- The validator loop of `is_chain_valid`, carrying the previous block. -/
def validFrom (prev : Block) : List Block → Bool
  | [] => true
  | b :: rest =>
      if b.hash ≠ b.calculate_hash then false
      else if b.previous_hash ≠ prev.hash then false
      else validFrom b rest

/-- Model of `SmartCityBlockchain.is_chain_valid`: the loop runs for indices
1 to `len(chain)-1`, so index 0 (genesis) is never checked against a
predecessor. -/
def is_chain_valid (chain : List Block) : Bool :=
  match chain with
  | [] => true
  | g :: rest => validFrom g rest

/-- Diagnostic refinement of the validator loop: before returning `False` the
source prints which position failed and whether the digest check or the
linkage check tripped; this function returns that information. -/
def firstViolFrom (prev : Block) (i : Nat) : List Block → Option (Nat × Violation)
  | [] => none
  | b :: rest =>
      if b.hash ≠ b.calculate_hash then some (i, Violation.digest)
      else if b.previous_hash ≠ prev.hash then some (i, Violation.linkage)
      else firstViolFrom b (i + 1) rest

/-- First violation (position and kind) reported by the validator walk. -/
def firstViolation (chain : List Block) : Option (Nat × Violation) :=
  match chain with
  | [] => none
  | g :: rest => firstViolFrom g 1 rest

/-- First matching value for a key in an object entry list (Python dict
lookup; entry lists on reachable states never repeat a key). -/
def lookupKey : List (String × Json) → String → Option Json
  | [], _ => none
  | (k, v) :: rest, key => if k = key then some v else lookupKey rest key

/-- Model of the `"transactions" in block.data` guard plus the
`block.data["transactions"]` access: the transaction list of a block's data,
or `[]` when the key is absent.  On reachable states the value under
`"transactions"` is always a list, so the fallthrough cases (which in Python
would raise a `TypeError` on iteration) are unreachable. -/
def block_transactions (d : Json) : List Json :=
  match d with
  | Json.obj entries =>
      match lookupKey entries "transactions" with
      | some (Json.arr txs) => txs
      | _ => []
  | _ => []

/-- Model of the `tx["type"] == record_type` test.  On reachable states every
stored record has a string under `"type"`, so the fallthrough cases (a
`KeyError` in Python) are unreachable. -/
def tx_matches (tx : Json) (record_type : String) : Bool :=
  match tx with
  | Json.obj entries =>
      match lookupKey entries "type" with
      | some (Json.str t) => t = record_type
      | _ => false
  | _ => false

/-- Model of `SmartCityBlockchain.get_block_data_by_type`: scan the chain in
order, flatten each block's transaction list, keep the records whose type
matches. -/
def collectByType (blocks : List Block) (record_type : String) : List Json :=
  match blocks with
  | [] => []
  | b :: rest =>
      (block_transactions b.data).filter (fun tx => tx_matches tx record_type)
        ++ collectByType rest record_type

/-- The method itself reads `self.chain` and accumulates into `results`. -/
def get_block_data_by_type (s : SmartCityBlockchain) (record_type : String) : List Json :=
  collectByType s.chain record_type

/-- States reachable by constructing the blockchain and then performing any
sequence of `add_data` and (successful) `mine_block` calls.  Timestamps are
arbitrary at every step, modelling `time.time()`. -/
inductive Reachable : SmartCityBlockchain → Prop
  | init (ts : Nat) : Reachable (init ts)
  | add_data (s : SmartCityBlockchain) (sender record_type : String) (details : Json)
      (ts : Nat) : Reachable s → Reachable (add_data s sender record_type details ts)
  | mine_block (s : SmartCityBlockchain) (ts : Nat) (s' : SmartCityBlockchain) (b : Block) :
      Reachable s → mine_block s ts = (s', Except.ok b) → Reachable s'

end Main

namespace Prajwal

open Js

/-- Embedding of `CryptoBlock` from `prajwal.py`.  `block_data` is a string:
every payload the program stores (the genesis text and `input()` data) is a
string. -/
structure CryptoBlock where
  block_id : Nat
  prev_block_hash : String
  created_time : Nat
  block_data : String
  nonce : Nat
  current_hash : String

/-- Digest of a block's content dictionary: exactly what
`CryptoBlock.generate_hash` hashes (under `sort_keys=True` the keys serialize
in the order `data`, `id`, `nonce`, `prev_hash`, `timestamp`). -/
def hashContent (block_id : Nat) (prev_block_hash : String) (created_time : Nat)
    (block_data : String) (nonce : Nat) : String :=
  Crypto.sha256 (dumps (Json.obj
    [("id", Json.num block_id), ("prev_hash", Json.str prev_block_hash),
     ("timestamp", Json.num created_time), ("data", Json.str block_data),
     ("nonce", Json.num nonce)]))

/-- Model of `CryptoBlock.generate_hash`: recompute the digest from the
current fields, ignoring the stored `current_hash`. -/
def CryptoBlock.generate_hash (b : CryptoBlock) : String :=
  hashContent b.block_id b.prev_block_hash b.created_time b.block_data b.nonce

/-- Model of the `CryptoBlock` constructor, which computes and stores
`current_hash` immediately. -/
def mkCryptoBlock (block_id : Nat) (prev_block_hash : String) (created_time : Nat)
    (block_data : String) (nonce : Nat) : CryptoBlock :=
  { block_id := block_id, prev_block_hash := prev_block_hash, created_time := created_time,
    block_data := block_data, nonce := nonce,
    current_hash := hashContent block_id prev_block_hash created_time block_data nonce }

/-- State of a `SecureChain`: the block list and the difficulty field. -/
structure SecureChain where
  blocks : List CryptoBlock
  mining_complexity : Nat

/-- Model of `SecureChain.initialize_genesis`. -/
def initialize_genesis (ts : Nat) : CryptoBlock :=
  mkCryptoBlock 0 "0x0" ts "Genesis Block - First block created" 0

/-- Model of `SecureChain.__init__`: one genesis block, difficulty 3. -/
def init (ts : Nat) : SecureChain := ⟨[initialize_genesis ts], 3⟩

/-- The string `"0" * complexity` that mined hashes must start with. -/
def mining_target (complexity : Nat) : String := String.mk (List.replicate complexity '0')

/-- Helper for `str.startswith`: does the second list start with the first? -/
def startsAux : List Char → List Char → Bool
  | [], _ => true
  | _ :: _, [] => false
  | p :: ps, c :: cs => p == c && startsAux ps cs

/-- Model of Python's `s.startswith(target)`. -/
def str_startswith (s target : String) : Bool := startsAux target.data s.data

/-- The `while True` mining loop of `SecureChain.mine_block`, indexed by fuel:
each iteration stores the recomputed hash on the block, stops if it meets the
target, otherwise increments the nonce.  `none` means the loop was still
running after `fuel` iterations (the source loops forever until success). -/
def mine_loop (complexity : Nat) : Nat → CryptoBlock → Option CryptoBlock
  | 0, _ => none
  | fuel + 1, target_block =>
      let b' := { target_block with current_hash := target_block.generate_hash }
      if str_startswith b'.current_hash (mining_target complexity) then some b'
      else mine_loop complexity fuel { b' with nonce := b'.nonce + 1 }

/-- Model of `SecureChain.mine_block`: reset the nonce to 0, then run the
search loop.  The difficulty is `self.mining_complexity`, passed explicitly
here. -/
def mine_block (complexity fuel : Nat) (target_block : CryptoBlock) : Option CryptoBlock :=
  mine_loop complexity fuel { target_block with nonce := 0 }

/-- Model of `SecureChain.append_new_block`.  The result pairs the state after
the call with the Python return value of the method, which is `None`: the
method has no `return` statement (the `Option CryptoBlock` component is
always `none` on success).  The outer `none` covers the runs that do not
finish: mining that exhausts its fuel, or the `IndexError` an empty block
list would raise. -/
def append_new_block (s : SecureChain) (user_data : String) (ts fuel : Nat) :
    Option (SecureChain × Option CryptoBlock) :=
  match s.blocks.getLast? with
  | none => none
  | some last =>
      let new_crypto_block := mkCryptoBlock s.blocks.length last.current_hash ts user_data 0
      match mine_block s.mining_complexity fuel new_crypto_block with
      | none => none
      | some mined => some ({ s with blocks := s.blocks ++ [mined] }, none)

/-- The validator loop of `validate_integrity`, carrying the previous block. -/
def validFrom (prev : CryptoBlock) : List CryptoBlock → Bool
  | [] => true
  | b :: rest =>
      if b.current_hash ≠ b.generate_hash then false
      else if b.prev_block_hash ≠ prev.current_hash then false
      else validFrom b rest

/-- Model of `SecureChain.validate_integrity`: the loop runs for indices 1 to
`len(blocks)-1`, so index 0 (genesis) is never checked against a
predecessor. -/
def validate_integrity (blocks : List CryptoBlock) : Bool :=
  match blocks with
  | [] => true
  | g :: rest => validFrom g rest

/-- Diagnostic refinement of `validate_integrity` (which failing position is
printed, and by which of the two checks). -/
def firstViolFrom (prev : CryptoBlock) (i : Nat) :
    List CryptoBlock → Option (Nat × Main.Violation)
  | [] => none
  | b :: rest =>
      if b.current_hash ≠ b.generate_hash then some (i, Main.Violation.digest)
      else if b.prev_block_hash ≠ prev.current_hash then some (i, Main.Violation.linkage)
      else firstViolFrom b (i + 1) rest

/-- First violation (position and kind) reported by the validator walk. -/
def firstViolation (blocks : List CryptoBlock) : Option (Nat × Main.Violation) :=
  match blocks with
  | [] => none
  | g :: rest => firstViolFrom g 1 rest

/-- States reachable by constructing the chain and then performing any
sequence of (terminating) `append_new_block` calls, with arbitrary user data,
timestamps and fuel. -/
inductive Reachable : SecureChain → Prop
  | init (ts : Nat) : Reachable (init ts)
  | append (s : SecureChain) (user_data : String) (ts fuel : Nat) (s' : SecureChain)
      (r : Option CryptoBlock) : Reachable s →
      append_new_block s user_data ts fuel = some (s', r) → Reachable s'

end Prajwal

namespace Main

open Js

/-- Default block used only to state positional facts through `List.getD`
(all uses are guarded by bounds, so the default never matters). -/
def dfltB : Block := mkBlock 0 0 (Json.num 0) "0"

/-- The property the validator checks at position `i ≥ 1`: stored digest
matches the recomputed digest, and the link to the predecessor's stored
digest holds. -/
def checkAt (chain : List Block) (i : Nat) : Prop :=
  (chain.getD i dfltB).hash = (chain.getD i dfltB).calculate_hash ∧
  (chain.getD i dfltB).previous_hash = (chain.getD (i - 1) dfltB).hash

instance (chain : List Block) (i : Nat) : Decidable (checkAt chain i) := by
  unfold checkAt; infer_instance

theorem validFrom_iff (prev : Block) (l : List Block) :
    validFrom prev l = true ↔
      ∀ j, j < l.length →
        ((l.getD j dfltB).hash = (l.getD j dfltB).calculate_hash ∧
         (l.getD j dfltB).previous_hash = ((prev :: l).getD j dfltB).hash) := by
  induction l generalizing prev with
  | nil => simp [validFrom]
  | cons b rest ih =>
      by_cases h1 : b.hash = b.calculate_hash
      · by_cases h2 : b.previous_hash = prev.hash
        · have hv : validFrom prev (b :: rest) = validFrom b rest := by
            simp [validFrom, h1, h2]
          rw [hv, ih b]
          constructor
          · intro H j hj
            cases j with
            | zero => simpa using ⟨h1, h2⟩
            | succ j => simpa using H j (by simpa using hj)
          · intro H j hj
            simpa using H (j + 1) (by simpa using hj)
        · have hv : validFrom prev (b :: rest) = false := by
            simp [validFrom, h2]
          rw [hv]
          simp only [Bool.false_eq_true, false_iff, not_forall]
          refine ⟨0, by simp, ?_⟩
          intro H
          exact h2 (by simpa using H.2)
      · have hv : validFrom prev (b :: rest) = false := by
          simp [validFrom, h1]
        rw [hv]
        simp only [Bool.false_eq_true, false_iff, not_forall]
        refine ⟨0, by simp, ?_⟩
        intro H
        exact h1 (by simpa using H.1)

/-- Positional characterization of `is_chain_valid`: true exactly when every
index from 1 to `len(chain)-1` passes both checks; index 0 is exempt. -/
theorem is_chain_valid_iff (chain : List Block) :
    is_chain_valid chain = true ↔ ∀ i, 1 ≤ i → i < chain.length → checkAt chain i := by
  cases chain with
  | nil => simp [is_chain_valid]
  | cons g rest =>
      rw [is_chain_valid, validFrom_iff]
      constructor
      · intro H i h1 hi
        cases i with
        | zero => omega
        | succ j =>
            have := H j (by simpa using hi)
            unfold checkAt
            simpa using this
      · intro H j hj
        have := H (j + 1) (by omega) (by simpa using hj)
        unfold checkAt at this
        simpa using this

end Main

namespace Main

theorem firstViolFrom_none_iff (prev : Block) (i : Nat) (l : List Block) :
    firstViolFrom prev i l = none ↔ validFrom prev l = true := by
  induction l generalizing prev i with
  | nil => simp [firstViolFrom, validFrom]
  | cons b rest ih =>
      by_cases h1 : b.hash = b.calculate_hash
      · by_cases h2 : b.previous_hash = prev.hash
        · simp [firstViolFrom, validFrom, h1, h2, ih]
        · simp [firstViolFrom, validFrom, h1, h2]
      · simp [firstViolFrom, validFrom, h1]

theorem firstViolFrom_spec (l : List Block) :
    ∀ (prev : Block) (i k : Nat) (v : Violation), firstViolFrom prev i l = some (k, v) →
      ∃ j, j < l.length ∧ k = i + j ∧
        ¬((l.getD j dfltB).hash = (l.getD j dfltB).calculate_hash ∧
          (l.getD j dfltB).previous_hash = ((prev :: l).getD j dfltB).hash) ∧
        (∀ j', j' < j →
          ((l.getD j' dfltB).hash = (l.getD j' dfltB).calculate_hash ∧
           (l.getD j' dfltB).previous_hash = ((prev :: l).getD j' dfltB).hash)) ∧
        (v = Violation.digest ↔ (l.getD j dfltB).hash ≠ (l.getD j dfltB).calculate_hash) := by
  induction l with
  | nil => intro prev i k v h; simp [firstViolFrom] at h
  | cons b rest ih =>
      intro prev i k v h
      by_cases h1 : b.hash = b.calculate_hash
      · by_cases h2 : b.previous_hash = prev.hash
        · have h' : firstViolFrom b (i + 1) rest = some (k, v) := by
            simpa [firstViolFrom, h1, h2] using h
          obtain ⟨j, hj, hk, hbad, hpre, hv⟩ := ih b (i + 1) k v h'
          refine ⟨j + 1, by simpa using hj, by omega, by simpa using hbad, ?_, by simpa using hv⟩
          intro j' hj'
          cases j' with
          | zero => simpa using ⟨h1, h2⟩
          | succ m => simpa using hpre m (by omega)
        · have hkv : k = i ∧ v = Violation.linkage := by
            have : some (i, Violation.linkage) = some (k, v) := by
              simpa [firstViolFrom, h1, h2] using h
            simpa [eq_comm] using this
          obtain ⟨rfl, rfl⟩ := hkv
          exact ⟨0, by simp, by omega, by simp [h2, h1], by omega,
            by simp [h1]⟩
      · have hkv : k = i ∧ v = Violation.digest := by
          have : some (i, Violation.digest) = some (k, v) := by
            simpa [firstViolFrom, h1] using h
          simpa [eq_comm] using this
        obtain ⟨rfl, rfl⟩ := hkv
        exact ⟨0, by simp, by omega, by simp [h1], by omega, by simp [h1]⟩

theorem firstViolation_none_iff (chain : List Block) :
    firstViolation chain = none ↔ is_chain_valid chain = true := by
  cases chain with
  | nil => simp [firstViolation, is_chain_valid]
  | cons g rest => simpa [firstViolation, is_chain_valid] using firstViolFrom_none_iff g 1 rest

theorem is_chain_valid_false_iff (chain : List Block) :
    is_chain_valid chain = false ↔ ∃ k v, firstViolation chain = some (k, v) := by
  constructor
  · intro h
    cases hf : firstViolation chain with
    | none =>
        rw [firstViolation_none_iff chain] at hf
        rw [hf] at h; cases h
    | some p => exact ⟨p.1, p.2, by simp [hf]⟩
  · rintro ⟨k, v, h⟩
    cases hv : is_chain_valid chain with
    | false => rfl
    | true =>
        rw [← firstViolation_none_iff chain] at hv
        rw [hv] at h; cases h

/-- Absolute-position specification of the validator's diagnostic: the
reported position is the earliest failing one, and the reported kind is
`digest` exactly when the digest check (performed first) is what failed. -/
theorem firstViolation_spec (chain : List Block) (k : Nat) (v : Violation)
    (h : firstViolation chain = some (k, v)) :
    1 ≤ k ∧ k < chain.length ∧ ¬checkAt chain k ∧
      (∀ j, 1 ≤ j → j < k → checkAt chain j) ∧
      (v = Violation.digest ↔
        (chain.getD k dfltB).hash ≠ (chain.getD k dfltB).calculate_hash) := by
  cases chain with
  | nil => simp [firstViolation] at h
  | cons g rest =>
      obtain ⟨j, hj, hk, hbad, hpre, hv⟩ :=
        firstViolFrom_spec rest g 1 k v (by simpa [firstViolation] using h)
      subst hk
      refine ⟨by omega, by simpa using by omega, ?_, ?_, ?_⟩
      · unfold checkAt
        simpa [Nat.add_comm 1 j] using hbad
      · intro i h1 hi
        cases i with
        | zero => omega
        | succ m =>
            unfold checkAt
            simpa using hpre m (by omega)
      · simpa [Nat.add_comm 1 j] using hv

/-- Converse direction: a failure at `k` preceded by clean positions is
reported exactly at `k`. -/
theorem firstViolation_eq_of (chain : List Block) (k : Nat) (hk1 : 1 ≤ k)
    (hk : k < chain.length) (hbad : ¬checkAt chain k)
    (hpre : ∀ j, 1 ≤ j → j < k → checkAt chain j) :
    is_chain_valid chain = false ∧ ∃ v, firstViolation chain = some (k, v) := by
  have hfalse : is_chain_valid chain = false := by
    cases hv : is_chain_valid chain with
    | false => rfl
    | true => exact absurd ((is_chain_valid_iff chain).mp hv k hk1 hk) hbad
  obtain ⟨k', v', h⟩ := (is_chain_valid_false_iff chain).mp hfalse
  obtain ⟨h1, _, h3, h4, _⟩ := firstViolation_spec chain k' v' h
  have hkk : k = k' := by
    by_contra hne
    rcases Nat.lt_or_ge k k' with hlt | hge
    · exact hbad (h4 k hk1 hlt)
    · exact h3 (hpre k' h1 (by omega))
  exact ⟨hfalse, v', hkk ▸ h⟩

end Main

namespace Main

open Js

/-- Well-formedness of a chain segment relative to the preceding block: every
block is self-consistent and linked to its predecessor's stored digest. -/
def GoodFrom (prev : Block) : List Block → Prop
  | [] => True
  | b :: rest => (b.hash = b.calculate_hash ∧ b.previous_hash = prev.hash) ∧ GoodFrom b rest

theorem validFrom_iff_GoodFrom (prev : Block) (l : List Block) :
    validFrom prev l = true ↔ GoodFrom prev l := by
  induction l generalizing prev with
  | nil => simp [validFrom, GoodFrom]
  | cons b rest ih =>
      by_cases h1 : b.hash = b.calculate_hash
      · by_cases h2 : b.previous_hash = prev.hash
        · simp [validFrom, GoodFrom, h1, h2, ih]
        · simp [validFrom, GoodFrom, h1, h2]
      · simp [validFrom, GoodFrom, h1]

theorem GoodFrom_append (prev : Block) (l : List Block) (b : Block) :
    GoodFrom prev (l ++ [b]) ↔
      GoodFrom prev l ∧ b.hash = b.calculate_hash ∧
        b.previous_hash = (l.getLastD prev).hash := by
  induction l generalizing prev with
  | nil => simp [GoodFrom, and_comm]
  | cons c t ih =>
      constructor
      · rintro ⟨hc, hrest⟩
        obtain ⟨hg, h1, h2⟩ := (ih c).mp hrest
        exact ⟨⟨hc, hg⟩, h1,
          by simpa [List.getLast?_cons, List.getLastD_eq_getLast?] using h2⟩
      · rintro ⟨⟨hc, hg⟩, h1, h2⟩
        exact ⟨hc, (ih c).mpr ⟨hg, h1,
          by simpa [List.getLast?_cons, List.getLastD_eq_getLast?] using h2⟩⟩

theorem GoodFrom_selfOk (prev : Block) (l : List Block) (h : GoodFrom prev l) :
    ∀ b ∈ l, b.hash = b.calculate_hash := by
  induction l generalizing prev with
  | nil => simp
  | cons c t ih =>
      intro b hb
      rcases List.mem_cons.mp hb with rfl | hb
      · exact h.1.1
      · exact ih c h.2 b hb

/-- Shape of the records placed in the pending buffer by `add_data`. -/
def TxShaped (j : Json) : Prop :=
  ∃ sender record_type details ts, j = pendingRecord sender record_type details ts

/-- Shape of the data dictionary of every mined (non-genesis) block. -/
def MinedShaped (d : Json) : Prop :=
  ∃ txs, d = Json.obj [("transactions", Json.arr txs)] ∧ ∀ tx ∈ txs, TxShaped tx

/-- Structural invariant of every reachable `SmartCityBlockchain` state. -/
def ChainInv (s : SmartCityBlockchain) : Prop :=
  ∃ ts rest, s.chain = genesis_block ts :: rest ∧ GoodFrom (genesis_block ts) rest ∧
    (∀ b ∈ rest, MinedShaped b.data) ∧ (∀ p ∈ s.pending_data, TxShaped p)

/-- Inversion of a successful `mine_block` call. -/
theorem mine_block_ok {s : SmartCityBlockchain} {ts : Nat} {s' : SmartCityBlockchain}
    {b : Block} (h : mine_block s ts = (s', Except.ok b)) :
    s.pending_data ≠ [] ∧ ∃ last, s.chain.getLast? = some last ∧
      b = mkBlock s.chain.length ts (Json.obj [("transactions", Json.arr s.pending_data)])
            last.hash ∧
      s' = ⟨s.chain ++ [b], []⟩ := by
  unfold mine_block at h
  split at h
  · next hp => simp [Prod.ext_iff] at h
  · next hp =>
      split at h
      · simp [Prod.ext_iff] at h
      · next last hl =>
          rw [Prod.mk.injEq] at h
          obtain ⟨h1, h2⟩ := h
          rw [Except.ok.injEq] at h2
          refine ⟨by simpa [List.isEmpty_iff] using hp, last, hl, h2.symm, ?_⟩
          rw [← h1, ← h2]

theorem reachable_inv {s : SmartCityBlockchain} (h : Reachable s) : ChainInv s := by
  induction h with
  | init ts => exact ⟨ts, [], rfl, trivial, by simp, by simp [init]⟩
  | add_data s sender record_type details ts _ ih =>
      obtain ⟨ts0, rest, hchain, hgood, hshape, hpend⟩ := ih
      refine ⟨ts0, rest, hchain, hgood, hshape, ?_⟩
      intro p hp
      rw [add_data] at hp
      simp only [List.mem_append, List.mem_singleton] at hp
      rcases hp with hp | rfl
      · exact hpend p hp
      · exact ⟨sender, record_type, details, ts, rfl⟩
  | mine_block s ts s' b _ heq ih =>
      obtain ⟨ts0, rest, hchain, hgood, hshape, hpend⟩ := ih
      obtain ⟨hne, last, hl, hb, hs'⟩ := mine_block_ok heq
      refine ⟨ts0, rest ++ [b], ?_, ?_, ?_, ?_⟩
      · rw [hs', hchain]; simp
      · rw [GoodFrom_append]
        refine ⟨hgood, by rw [hb]; rfl, ?_⟩
        rw [hchain, List.getLast?_cons] at hl
        rw [hb]
        simpa [mkBlock] using congrArg (fun o => (Option.getD o dfltB).hash) hl.symm
      · intro c hc
        rcases List.mem_append.mp hc with hc | hc
        · exact hshape c hc
        · rw [List.mem_singleton] at hc
          subst hc
          exact ⟨s.pending_data, by rw [hb]; rfl, hpend⟩
      · rw [hs']; simp

theorem reachable_valid {s : SmartCityBlockchain} (h : Reachable s) :
    is_chain_valid s.chain = true := by
  obtain ⟨ts0, rest, hchain, hgood, _, _⟩ := reachable_inv h
  rw [hchain, is_chain_valid, validFrom_iff_GoodFrom]
  exact hgood

end Main

namespace Prajwal

open Js

/-- Default block for positional statements through `List.getD` (uses are
bounds-guarded). -/
def dfltC : CryptoBlock := mkCryptoBlock 0 "0x0" 0 "" 0

/-- The property `validate_integrity` checks at position `i ≥ 1`. -/
def checkAt (blocks : List CryptoBlock) (i : Nat) : Prop :=
  (blocks.getD i dfltC).current_hash = (blocks.getD i dfltC).generate_hash ∧
  (blocks.getD i dfltC).prev_block_hash = (blocks.getD (i - 1) dfltC).current_hash

instance (blocks : List CryptoBlock) (i : Nat) : Decidable (checkAt blocks i) := by
  unfold checkAt; infer_instance

theorem validFrom_iff_pj (prev : CryptoBlock) (l : List CryptoBlock) :
    validFrom prev l = true ↔
      ∀ j, j < l.length →
        ((l.getD j dfltC).current_hash = (l.getD j dfltC).generate_hash ∧
         (l.getD j dfltC).prev_block_hash = ((prev :: l).getD j dfltC).current_hash) := by
  induction l generalizing prev with
  | nil => simp [validFrom]
  | cons b rest ih =>
      by_cases h1 : b.current_hash = b.generate_hash
      · by_cases h2 : b.prev_block_hash = prev.current_hash
        · have hv : validFrom prev (b :: rest) = validFrom b rest := by
            simp [validFrom, h1, h2]
          rw [hv, ih b]
          constructor
          · intro H j hj
            cases j with
            | zero => simpa using ⟨h1, h2⟩
            | succ j => simpa using H j (by simpa using hj)
          · intro H j hj
            simpa using H (j + 1) (by simpa using hj)
        · have hv : validFrom prev (b :: rest) = false := by
            simp [validFrom, h2]
          rw [hv]
          simp only [Bool.false_eq_true, false_iff, not_forall]
          refine ⟨0, by simp, ?_⟩
          intro H
          exact h2 (by simpa using H.2)
      · have hv : validFrom prev (b :: rest) = false := by
          simp [validFrom, h1]
        rw [hv]
        simp only [Bool.false_eq_true, false_iff, not_forall]
        refine ⟨0, by simp, ?_⟩
        intro H
        exact h1 (by simpa using H.1)

/-- Positional characterization of `validate_integrity`; index 0 (genesis) is
exempt. -/
theorem validate_integrity_iff (blocks : List CryptoBlock) :
    validate_integrity blocks = true ↔
      ∀ i, 1 ≤ i → i < blocks.length → checkAt blocks i := by
  cases blocks with
  | nil => simp [validate_integrity]
  | cons g rest =>
      rw [validate_integrity, validFrom_iff_pj]
      constructor
      · intro H i h1 hi
        cases i with
        | zero => omega
        | succ j =>
            have := H j (by simpa using hi)
            unfold checkAt
            simpa using this
      · intro H j hj
        have := H (j + 1) (by omega) (by simpa using hj)
        unfold checkAt at this
        simpa using this

theorem firstViolFrom_none_iff_pj (prev : CryptoBlock) (i : Nat) (l : List CryptoBlock) :
    firstViolFrom prev i l = none ↔ validFrom prev l = true := by
  induction l generalizing prev i with
  | nil => simp [firstViolFrom, validFrom]
  | cons b rest ih =>
      by_cases h1 : b.current_hash = b.generate_hash
      · by_cases h2 : b.prev_block_hash = prev.current_hash
        · simp [firstViolFrom, validFrom, h1, h2, ih]
        · simp [firstViolFrom, validFrom, h1, h2]
      · simp [firstViolFrom, validFrom, h1]

theorem firstViolFrom_spec_pj (l : List CryptoBlock) :
    ∀ (prev : CryptoBlock) (i k : Nat) (v : Main.Violation),
      firstViolFrom prev i l = some (k, v) →
      ∃ j, j < l.length ∧ k = i + j ∧
        ¬((l.getD j dfltC).current_hash = (l.getD j dfltC).generate_hash ∧
          (l.getD j dfltC).prev_block_hash = ((prev :: l).getD j dfltC).current_hash) ∧
        (∀ j', j' < j →
          ((l.getD j' dfltC).current_hash = (l.getD j' dfltC).generate_hash ∧
           (l.getD j' dfltC).prev_block_hash = ((prev :: l).getD j' dfltC).current_hash)) ∧
        (v = Main.Violation.digest ↔
          (l.getD j dfltC).current_hash ≠ (l.getD j dfltC).generate_hash) := by
  induction l with
  | nil => intro prev i k v h; simp [firstViolFrom] at h
  | cons b rest ih =>
      intro prev i k v h
      by_cases h1 : b.current_hash = b.generate_hash
      · by_cases h2 : b.prev_block_hash = prev.current_hash
        · have h' : firstViolFrom b (i + 1) rest = some (k, v) := by
            simpa [firstViolFrom, h1, h2] using h
          obtain ⟨j, hj, hk, hbad, hpre, hv⟩ := ih b (i + 1) k v h'
          refine ⟨j + 1, by simpa using hj, by omega, by simpa using hbad, ?_, by simpa using hv⟩
          intro j' hj'
          cases j' with
          | zero => simpa using ⟨h1, h2⟩
          | succ m => simpa using hpre m (by omega)
        · have hkv : k = i ∧ v = Main.Violation.linkage := by
            have : some (i, Main.Violation.linkage) = some (k, v) := by
              simpa [firstViolFrom, h1, h2] using h
            simpa [eq_comm] using this
          obtain ⟨rfl, rfl⟩ := hkv
          exact ⟨0, by simp, by omega, by simp [h2, h1], by omega, by simp [h1]⟩
      · have hkv : k = i ∧ v = Main.Violation.digest := by
          have : some (i, Main.Violation.digest) = some (k, v) := by
            simpa [firstViolFrom, h1] using h
          simpa [eq_comm] using this
        obtain ⟨rfl, rfl⟩ := hkv
        exact ⟨0, by simp, by omega, by simp [h1], by omega, by simp [h1]⟩

theorem firstViolation_none_iff_pj (blocks : List CryptoBlock) :
    firstViolation blocks = none ↔ validate_integrity blocks = true := by
  cases blocks with
  | nil => simp [firstViolation, validate_integrity]
  | cons g rest =>
      simpa [firstViolation, validate_integrity] using firstViolFrom_none_iff_pj g 1 rest

theorem validate_integrity_false_iff (blocks : List CryptoBlock) :
    validate_integrity blocks = false ↔ ∃ k v, firstViolation blocks = some (k, v) := by
  constructor
  · intro h
    cases hf : firstViolation blocks with
    | none =>
        rw [firstViolation_none_iff_pj blocks] at hf
        rw [hf] at h; cases h
    | some p => exact ⟨p.1, p.2, by simp [hf]⟩
  · rintro ⟨k, v, h⟩
    cases hv : validate_integrity blocks with
    | false => rfl
    | true =>
        rw [← firstViolation_none_iff_pj blocks] at hv
        rw [hv] at h; cases h

/-- Absolute-position specification of the diagnostic of
`validate_integrity`. -/
theorem firstViolation_spec_pj (blocks : List CryptoBlock) (k : Nat) (v : Main.Violation)
    (h : firstViolation blocks = some (k, v)) :
    1 ≤ k ∧ k < blocks.length ∧ ¬checkAt blocks k ∧
      (∀ j, 1 ≤ j → j < k → checkAt blocks j) ∧
      (v = Main.Violation.digest ↔
        (blocks.getD k dfltC).current_hash ≠ (blocks.getD k dfltC).generate_hash) := by
  cases blocks with
  | nil => simp [firstViolation] at h
  | cons g rest =>
      obtain ⟨j, hj, hk, hbad, hpre, hv⟩ :=
        firstViolFrom_spec_pj rest g 1 k v (by simpa [firstViolation] using h)
      subst hk
      refine ⟨by omega, by simpa using by omega, ?_, ?_, ?_⟩
      · unfold checkAt
        simpa [Nat.add_comm 1 j] using hbad
      · intro i h1 hi
        cases i with
        | zero => omega
        | succ m =>
            unfold checkAt
            simpa using hpre m (by omega)
      · simpa [Nat.add_comm 1 j] using hv

end Prajwal

namespace Prajwal

/-- What a terminating run of the mining loop guarantees: the stored hash is
the recomputed hash of the final fields, it meets the difficulty target, and
every field other than `nonce` and `current_hash` is untouched. -/
theorem mine_loop_spec_pj {complexity fuel : Nat} {b m : CryptoBlock}
    (h : mine_loop complexity fuel b = some m) :
    m.current_hash = m.generate_hash ∧
    str_startswith m.current_hash (mining_target complexity) = true ∧
    m.block_id = b.block_id ∧ m.prev_block_hash = b.prev_block_hash ∧
    m.created_time = b.created_time ∧ m.block_data = b.block_data := by
  induction fuel generalizing b with
  | zero => simp [mine_loop] at h
  | succ fuel ih =>
      rw [mine_loop] at h
      split at h
  
      · next hc =>
          rw [Option.some.injEq] at h
          subst h
          exact ⟨rfl, hc, rfl, rfl, rfl, rfl⟩
      · next hc =>
          obtain ⟨h1, h2, h3, h4, h5, h6⟩ := ih h
          exact ⟨h1, h2, h3, h4, h5, h6⟩

/-- A successful `mine_block` call: same guarantees, relative to the candidate
with its nonce reset to 0. -/
theorem mine_block_spec_pj {complexity fuel : Nat} {tb m : CryptoBlock}
    (h : mine_block complexity fuel tb = some m) :
    m.current_hash = m.generate_hash ∧
    str_startswith m.current_hash (mining_target complexity) = true ∧
    m.block_id = tb.block_id ∧ m.prev_block_hash = tb.prev_block_hash ∧
    m.created_time = tb.created_time ∧ m.block_data = tb.block_data :=
  @mine_loop_spec_pj complexity fuel { tb with nonce := 0 } m h

/-- Inversion of a terminating `append_new_block` call. -/
theorem append_new_block_some_pj {s : SecureChain} {user_data : String} {ts fuel : Nat}
    {s' : SecureChain} {r : Option CryptoBlock}
    (h : append_new_block s user_data ts fuel = some (s', r)) :
    ∃ last mined, s.blocks.getLast? = some last ∧
      mine_block s.mining_complexity fuel
        (mkCryptoBlock s.blocks.length last.current_hash ts user_data 0) = some mined ∧
      s' = { s with blocks := s.blocks ++ [mined] } ∧ r = none := by
  unfold append_new_block at h
  split at h
  · simp at h
  · next last hl =>
      dsimp only at h
      split at h
      · simp at h
      · next mined hm =>
          rw [Option.some.injEq, Prod.mk.injEq] at h
          exact ⟨last, mined, hl, hm, h.1.symm, h.2.symm⟩

/-- Well-formedness of a block-list segment relative to the preceding block. -/
def GoodFrom (prev : CryptoBlock) : List CryptoBlock → Prop
  | [] => True
  | b :: rest =>
      (b.current_hash = b.generate_hash ∧ b.prev_block_hash = prev.current_hash) ∧
        GoodFrom b rest

theorem validFrom_iff_GoodFrom_pj (prev : CryptoBlock) (l : List CryptoBlock) :
    validFrom prev l = true ↔ GoodFrom prev l := by
  induction l generalizing prev with
  | nil => simp [validFrom, GoodFrom]
  | cons b rest ih =>
      by_cases h1 : b.current_hash = b.generate_hash
      · by_cases h2 : b.prev_block_hash = prev.current_hash
        · simp [validFrom, GoodFrom, h1, h2, ih]
        · simp [validFrom, GoodFrom, h1, h2]
      · simp [validFrom, GoodFrom, h1]

theorem GoodFrom_append_pj (prev : CryptoBlock) (l : List CryptoBlock) (b : CryptoBlock) :
    GoodFrom prev (l ++ [b]) ↔
      GoodFrom prev l ∧ b.current_hash = b.generate_hash ∧
        b.prev_block_hash = (l.getLastD prev).current_hash := by
  induction l generalizing prev with
  | nil => simp [GoodFrom, and_comm]
  | cons c t ih =>
      constructor
      · rintro ⟨hc, hrest⟩
        obtain ⟨hg, h1, h2⟩ := (ih c).mp hrest
        exact ⟨⟨hc, hg⟩, h1,
          by simpa [List.getLast?_cons, List.getLastD_eq_getLast?] using h2⟩
      · rintro ⟨⟨hc, hg⟩, h1, h2⟩
        exact ⟨hc, (ih c).mpr ⟨hg, h1,
          by simpa [List.getLast?_cons, List.getLastD_eq_getLast?] using h2⟩⟩

theorem GoodFrom_selfOk_pj (prev : CryptoBlock) (l : List CryptoBlock) (h : GoodFrom prev l) :
    ∀ b ∈ l, b.current_hash = b.generate_hash := by
  induction l generalizing prev with
  | nil => simp
  | cons c t ih =>
      intro b hb
      rcases List.mem_cons.mp hb with rfl | hb
      · exact h.1.1
      · exact ih c h.2 b hb

/-- Structural invariant of every reachable `SecureChain` state. -/
def ChainInv (s : SecureChain) : Prop :=
  ∃ ts rest, s.blocks = initialize_genesis ts :: rest ∧
    GoodFrom (initialize_genesis ts) rest

theorem reachable_inv_pj {s : SecureChain} (h : Reachable s) : ChainInv s := by
  induction h with
  | init ts => exact ⟨ts, [], rfl, trivial⟩
  | append s user_data ts fuel s' r _ heq ih =>
      obtain ⟨ts0, rest, hblocks, hgood⟩ := ih
      obtain ⟨last, mined, hl, hm, hs', _⟩ := append_new_block_some_pj heq
      obtain ⟨hself, _, _, hprev, _, _⟩ := mine_block_spec_pj hm
      refine ⟨ts0, rest ++ [mined], ?_, ?_⟩
      · rw [hs', hblocks]; simp
      · rw [GoodFrom_append_pj]
        refine ⟨hgood, hself, ?_⟩
        rw [hblocks, List.getLast?_cons] at hl
        rw [hprev]
        simpa [mkCryptoBlock]
          using congrArg (fun o => (Option.getD o dfltC).current_hash) hl.symm

theorem reachable_valid_pj {s : SecureChain} (h : Reachable s) :
    validate_integrity s.blocks = true := by
  obtain ⟨ts0, rest, hblocks, hgood⟩ := reachable_inv_pj h
  rw [hblocks, validate_integrity, validFrom_iff_GoodFrom_pj]
  exact hgood

end Prajwal

/-- Claim C1.  Both validators (`is_chain_valid` in `main.py`,
`validate_integrity` in `prajwal.py`) return `True` iff every index `i` from
1 to `len - 1` passes both checks (stored digest equals recomputed digest,
and `previous` digest equals the predecessor's stored digest); genesis
(index 0) is never checked against a predecessor.  When the result is
`False` there is a first violation, located at the earliest violating index,
with the digest check tried before the linkage check. -/
theorem C1_validator_correct :
    (∀ chain : List Main.Block,
      (Main.is_chain_valid chain = true ↔
        ∀ i, 1 ≤ i → i < chain.length → Main.checkAt chain i) ∧
      (Main.is_chain_valid chain = false ↔
        ∃ k v, Main.firstViolation chain = some (k, v)) ∧
      (∀ k v, Main.firstViolation chain = some (k, v) →
        1 ≤ k ∧ k < chain.length ∧ ¬Main.checkAt chain k ∧
        (∀ j, 1 ≤ j → j < k → Main.checkAt chain j) ∧
        (v = Main.Violation.digest ↔
          (chain.getD k Main.dfltB).hash ≠ (chain.getD k Main.dfltB).calculate_hash))) ∧
    (∀ blocks : List Prajwal.CryptoBlock,
      (Prajwal.validate_integrity blocks = true ↔
        ∀ i, 1 ≤ i → i < blocks.length → Prajwal.checkAt blocks i) ∧
      (Prajwal.validate_integrity blocks = false ↔
        ∃ k v, Prajwal.firstViolation blocks = some (k, v)) ∧
      (∀ k v, Prajwal.firstViolation blocks = some (k, v) →
        1 ≤ k ∧ k < blocks.length ∧ ¬Prajwal.checkAt blocks k ∧
        (∀ j, 1 ≤ j → j < k → Prajwal.checkAt blocks j) ∧
        (v = Main.Violation.digest ↔
          (blocks.getD k Prajwal.dfltC).current_hash ≠
            (blocks.getD k Prajwal.dfltC).generate_hash))) :=
  ⟨fun chain =>
    ⟨Main.is_chain_valid_iff chain, Main.is_chain_valid_false_iff chain,
     fun k v h => Main.firstViolation_spec chain k v h⟩,
   fun blocks =>
    ⟨Prajwal.validate_integrity_iff blocks, Prajwal.validate_integrity_false_iff blocks,
     fun k v h => Prajwal.firstViolation_spec_pj blocks k v h⟩⟩

/-- Witness for C1 on a concrete chain: a single-block chain passes both
validators (the loop body never runs). -/
theorem C1_validator_correct_witness :
    Main.is_chain_valid [Main.genesis_block 0] = true ∧
      Prajwal.validate_integrity [Prajwal.initialize_genesis 0] = true := by
  constructor
  · exact (C1_validator_correct.1 [Main.genesis_block 0]).1.mpr
      (fun i h1 h2 => by simp at h2; omega)
  · exact (C1_validator_correct.2 [Prajwal.initialize_genesis 0]).1.mpr
      (fun i h1 h2 => by simp at h2; omega)

/-- Claim C2.  On every reachable (untampered) state of either system, every
block at position `i > 0` links to its predecessor's stored digest, every
block's stored digest (genesis included) equals the digest recomputed from
its fields, and consequently the validator returns `True`. -/
theorem C2_untampered_chains_valid :
    (∀ s : Main.SmartCityBlockchain, Main.Reachable s →
      (∀ i, 1 ≤ i → i < s.chain.length → Main.checkAt s.chain i) ∧
      (∀ b ∈ s.chain, b.hash = b.calculate_hash) ∧
      Main.is_chain_valid s.chain = true) ∧
    (∀ t : Prajwal.SecureChain, Prajwal.Reachable t →
      (∀ i, 1 ≤ i → i < t.blocks.length → Prajwal.checkAt t.blocks i) ∧
      (∀ b ∈ t.blocks, b.current_hash = b.generate_hash) ∧
      Prajwal.validate_integrity t.blocks = true) := by
  constructor
  · intro s hs
    have hvalid := Main.reachable_valid hs
    obtain ⟨ts0, rest, hchain, hgood, _, _⟩ := Main.reachable_inv hs
    refine ⟨(Main.is_chain_valid_iff s.chain).mp hvalid, ?_, hvalid⟩
    intro b hb
    rw [hchain] at hb
    rcases List.mem_cons.mp hb with rfl | hb
    · rfl
    · exact Main.GoodFrom_selfOk _ rest hgood b hb
  · intro t ht
    have hvalid := Prajwal.reachable_valid_pj ht
    obtain ⟨ts0, rest, hblocks, hgood⟩ := Prajwal.reachable_inv_pj ht
    refine ⟨(Prajwal.validate_integrity_iff t.blocks).mp hvalid, ?_, hvalid⟩
    intro b hb
    rw [hblocks] at hb
    rcases List.mem_cons.mp hb with rfl | hb
    · rfl
    · exact Prajwal.GoodFrom_selfOk_pj _ rest hgood b hb

/-- Witness for C2 at the freshly constructed states. -/
theorem C2_untampered_chains_valid_witness :
    Main.is_chain_valid (Main.init 0).chain = true ∧
      Prajwal.validate_integrity (Prajwal.init 0).blocks = true :=
  ⟨(C2_untampered_chains_valid.1 _ (Main.Reachable.init 0)).2.2,
   (C2_untampered_chains_valid.2 _ (Prajwal.Reachable.init 0)).2.2⟩

namespace Prajwal

/-- Count of leading `'0'` characters of a character list. -/
def czAux : List Char → Nat
  | [] => 0
  | c :: cs => if c = '0' then czAux cs + 1 else 0

/-- Count of leading zero characters of a digest, used to state the
"exactly `d` zeros" reading of the proof-of-work property. -/
def count_leading_zeros (s : String) : Nat := czAux s.data

theorem startswith_target_zero (s : String) :
    str_startswith s (mining_target 0) = true := rfl

end Prajwal

/-- Claim C8.  With difficulty 0, mining succeeds within a single iteration
(fuel 1 suffices), for every candidate block: the first computed digest
satisfies the empty prefix requirement, the nonce is reset to and stays 0,
and the stored digest is the recomputed digest of the nonce-0 candidate. -/
theorem C8_zero_difficulty_single_attempt (tb : Prajwal.CryptoBlock) (fuel : Nat)
    (hf : 1 ≤ fuel) :
    Prajwal.mine_block 0 fuel tb =
      some { tb with
             nonce := 0,
             current_hash := Prajwal.CryptoBlock.generate_hash { tb with nonce := 0 } } := by
  cases fuel with
  | zero => omega
  | succ fuel =>
      rw [Prajwal.mine_block, Prajwal.mine_loop]
      simp only [Prajwal.startswith_target_zero, if_true]

/-- Witness for C8: a concrete candidate (with a nonzero starting nonce, which
mining resets) is mined in one attempt at difficulty 0. -/
theorem C8_zero_difficulty_single_attempt_witness :
    Prajwal.mine_block 0 1 (Prajwal.mkCryptoBlock 1 "0x0" 22 "d" 5) =
      some { (Prajwal.mkCryptoBlock 1 "0x0" 22 "d" 5) with
             nonce := 0,
             current_hash := Prajwal.CryptoBlock.generate_hash
               { (Prajwal.mkCryptoBlock 1 "0x0" 22 "d" 5) with nonce := 0 } } :=
  C8_zero_difficulty_single_attempt (Prajwal.mkCryptoBlock 1 "0x0" 22 "d" 5) 1 (le_refl 1)

/-- Claim C4 as stated: a terminating `mine_block` run yields a digest with
exactly `complexity` leading zero hex characters, and the stored digest is
recomputed from the final fields. -/
def C4Statement : Prop :=
  ∀ (complexity fuel : Nat) (tb m : Prajwal.CryptoBlock),
    Prajwal.mine_block complexity fuel tb = some m →
    Prajwal.count_leading_zeros m.current_hash = complexity ∧
    m.current_hash = m.generate_hash

set_option maxRecDepth 1000000 in
/-- Counterexample to C4 as stated: the loop only checks that the digest
starts with `complexity` zeros, so a luckier digest can have more.  At
difficulty 0, the block `(id 1, prev "0x0", time 22, data "d", nonce 0)` is
accepted on the first attempt with a digest that starts with one zero
(`0f91f284...`), not exactly zero of them. -/
theorem C4_claim_false : ¬ C4Statement := by
  intro H
  have h := (H 0 1 (Prajwal.mkCryptoBlock 1 "0x0" 22 "d" 0) _ rfl).1
  have h1 : Prajwal.count_leading_zeros
      (Prajwal.CryptoBlock.generate_hash
        { (Prajwal.mkCryptoBlock 1 "0x0" 22 "d" 0) with nonce := 0 }) = 1 := by decide
  rw [h1] at h
  cases h

/-- Claim C4, amended: when `mine_block` terminates, the stored digest starts
with (at least) `complexity` zero hex characters — the exact check the loop
performs — and equals the digest recomputed from the candidate's final
fields. -/
theorem C4_pow_mining_amended (complexity fuel : Nat) (tb m : Prajwal.CryptoBlock)
    (h : Prajwal.mine_block complexity fuel tb = some m) :
    Prajwal.str_startswith m.current_hash (Prajwal.mining_target complexity) = true ∧
      m.current_hash = m.generate_hash :=
  ⟨(Prajwal.mine_block_spec_pj h).2.1, (Prajwal.mine_block_spec_pj h).1⟩

/-- Witness for the amended C4 at a concrete mined block. -/
theorem C4_pow_mining_amended_witness :
    Prajwal.str_startswith
        (Prajwal.CryptoBlock.generate_hash
          { (Prajwal.mkCryptoBlock 1 "0x0" 22 "d" 0) with nonce := 0 })
        (Prajwal.mining_target 0) = true :=
  (C4_pow_mining_amended 0 1 (Prajwal.mkCryptoBlock 1 "0x0" 22 "d" 0) _ rfl).1

/-- Claim C7.  With a nonempty chain (true of every reachable state),
`mine_block` raises exactly when the pending buffer is empty; the raise
happens before any mutation, so chain and buffer are unchanged; on success it
appends one block carrying all pending records and clears the buffer. -/
theorem C7_mine_error_handling (s : Main.SmartCityBlockchain) (ts : Nat)
    (hchain : s.chain ≠ []) :
    ((∃ e, (Main.mine_block s ts).2 = Except.error e) ↔ s.pending_data = []) ∧
    (s.pending_data = [] →
      Main.mine_block s ts = (s, Except.error "No pending data to mine")) ∧
    (s.pending_data ≠ [] →
      ∃ b, (Main.mine_block s ts).2 = Except.ok b ∧
        (Main.mine_block s ts).1.chain = s.chain ++ [b] ∧
        b.data = Js.Json.obj [("transactions", Js.Json.arr s.pending_data)] ∧
        (Main.mine_block s ts).1.pending_data = []) := by
  by_cases hp : s.pending_data = []
  · have hm : Main.mine_block s ts = (s, Except.error "No pending data to mine") := by
      simp [Main.mine_block, hp]
    refine ⟨⟨fun _ => hp, fun _ => ?_⟩, fun _ => hm, fun hne => absurd hp hne⟩
    exact ⟨"No pending data to mine", by rw [hm]⟩
  · obtain ⟨last, hl⟩ := Option.isSome_iff_exists.mp (List.getLast?_isSome.mpr hchain)
    have hm : Main.mine_block s ts =
        ({ chain := s.chain ++ [Main.mkBlock s.chain.length ts
              (Js.Json.obj [("transactions", Js.Json.arr s.pending_data)]) last.hash],
           pending_data := [] },
         Except.ok (Main.mkBlock s.chain.length ts
              (Js.Json.obj [("transactions", Js.Json.arr s.pending_data)]) last.hash)) := by
      simp [Main.mine_block, hp, hl]
    refine ⟨⟨?_, fun h => absurd h hp⟩, fun h => absurd h hp, fun _ => ?_⟩
    · rintro ⟨e, he⟩
      rw [hm] at he
      cases he
    · exact ⟨_, by rw [hm], by rw [hm], rfl, by rw [hm]⟩

/-- Witness for C7: on the fresh state the buffer is empty and mining raises
with the chain untouched; after one `add_data` it succeeds. -/
theorem C7_mine_error_handling_witness :
    Main.mine_block (Main.init 0) 0 = ((Main.init 0), Except.error "No pending data to mine") ∧
    (∃ b, (Main.mine_block (Main.add_data (Main.init 0) "s" "t" (Js.Json.num 0) 0) 0).2
        = Except.ok b) := by
  constructor
  · exact (C7_mine_error_handling (Main.init 0) 0 (by simp [Main.init])).2.1 rfl
  · obtain ⟨b, hb, _⟩ := (C7_mine_error_handling
      (Main.add_data (Main.init 0) "s" "t" (Js.Json.num 0) 0) 0
      (by simp [Main.init, Main.add_data])).2.2 (by simp [Main.init, Main.add_data])
    exact ⟨b, hb⟩

/-- Claim C6 as stated: a successful append on either system appends exactly
one correctly indexed and linked block, grows the chain by one, leaves the
prior blocks unchanged, and returns the newly appended block — the last part
asserted for `append_new_block` as well. -/
def C6Statement : Prop :=
  (∀ (s : Main.SmartCityBlockchain) (ts : Nat) (s' : Main.SmartCityBlockchain)
      (b : Main.Block), Main.mine_block s ts = (s', Except.ok b) →
    s'.chain = s.chain ++ [b] ∧ b.index = s.chain.length ∧
    (∃ last, s.chain.getLast? = some last ∧ b.previous_hash = last.hash) ∧
    s'.chain.length = s.chain.length + 1 ∧ s'.chain.take s.chain.length = s.chain) ∧
  (∀ (t : Prajwal.SecureChain) (ud : String) (ts fuel : Nat) (t' : Prajwal.SecureChain)
      (r : Option Prajwal.CryptoBlock),
    Prajwal.append_new_block t ud ts fuel = some (t', r) →
    ∃ m, t'.blocks = t.blocks ++ [m] ∧ m.block_id = t.blocks.length ∧
      (∃ last, t.blocks.getLast? = some last ∧ m.prev_block_hash = last.current_hash) ∧
      t'.blocks.length = t.blocks.length + 1 ∧ t'.blocks.take t.blocks.length = t.blocks ∧
      r = some m) ∧
  (∀ (s : Main.SmartCityBlockchain) (sender record_type : String) (details : Js.Json)
      (ts : Nat), (Main.add_data s sender record_type details ts).chain = s.chain)

/-- A one-block `SecureChain` with difficulty 0, used for concrete
`append_new_block` runs that need no hash search. -/
def pjDemoChain : Prajwal.SecureChain := ⟨[Prajwal.mkCryptoBlock 0 "0x0" 0 "g" 0], 0⟩

/-- Counterexample to C6 as stated: `append_new_block` has no `return`
statement, so a successful append returns `None`, not the appended block. -/
theorem C6_claim_false : ¬ C6Statement := by
  intro H
  obtain ⟨m, _, _, _, _, _, hr⟩ := H.2.1 pjDemoChain "d" 0 1 _ none rfl
  cases hr

/-- Claim C6, amended: as stated except for the return value of
`append_new_block`, which is `None` (the appended block is the new last
element); `mine_block` does return the appended block, and `add_data` never
touches the chain. -/
theorem C6_append_frame_amended :
    (∀ (s : Main.SmartCityBlockchain) (ts : Nat) (s' : Main.SmartCityBlockchain)
        (b : Main.Block), Main.mine_block s ts = (s', Except.ok b) →
      s'.chain = s.chain ++ [b] ∧ b.index = s.chain.length ∧
      (∃ last, s.chain.getLast? = some last ∧ b.previous_hash = last.hash) ∧
      s'.chain.length = s.chain.length + 1 ∧ s'.chain.take s.chain.length = s.chain) ∧
    (∀ (t : Prajwal.SecureChain) (ud : String) (ts fuel : Nat) (t' : Prajwal.SecureChain)
        (r : Option Prajwal.CryptoBlock),
      Prajwal.append_new_block t ud ts fuel = some (t', r) →
      ∃ m, t'.blocks = t.blocks ++ [m] ∧ m.block_id = t.blocks.length ∧
        (∃ last, t.blocks.getLast? = some last ∧ m.prev_block_hash = last.current_hash) ∧
        t'.blocks.length = t.blocks.length + 1 ∧ t'.blocks.take t.blocks.length = t.blocks ∧
        r = none) ∧
    (∀ (s : Main.SmartCityBlockchain) (sender record_type : String) (details : Js.Json)
        (ts : Nat), (Main.add_data s sender record_type details ts).chain = s.chain) := by
  refine ⟨?_, ?_, fun s sender record_type details ts => rfl⟩
  · intro s ts s' b h
    obtain ⟨_, last, hl, hb, hs'⟩ := Main.mine_block_ok h
    refine ⟨by rw [hs'], by rw [hb]; rfl, ⟨last, hl, by rw [hb]; rfl⟩, ?_, ?_⟩
    · rw [hs']; simp
    · rw [hs']; simp
  · intro t ud ts fuel t' r h
    obtain ⟨last, mined, hl, hm, ht', hr⟩ := Prajwal.append_new_block_some_pj h
    obtain ⟨_, _, hid, hprev, _, _⟩ := Prajwal.mine_block_spec_pj hm
    refine ⟨mined, by rw [ht'], by rw [hid]; rfl, ⟨last, hl, by rw [hprev]; rfl⟩, ?_, ?_, hr⟩
    · rw [ht']; simp
    · rw [ht']; simp

/-- Witness for the amended C6: concrete successful appends on both systems
grow the chain to length 2, and the `append_new_block` run returns `None`. -/
theorem C6_append_frame_amended_witness :
    (∃ s' b, Main.mine_block (Main.add_data (Main.init 0) "s" "t" (Js.Json.num 0) 0) 0
        = (s', Except.ok b) ∧ s'.chain.length = 2) ∧
    ∃ t' r, Prajwal.append_new_block pjDemoChain "d" 0 1 = some (t', r) ∧
      t'.blocks.length = 2 ∧ r = none := by
  constructor
  · refine ⟨_, _, rfl, ?_⟩
    have h := C6_append_frame_amended.1
      (Main.add_data (Main.init 0) "s" "t" (Js.Json.num 0) 0) 0 _ _ rfl
    rw [h.2.2.2.1]
    simp [Main.add_data, Main.init]
  · obtain ⟨m, h1, _, _, h4, _, hr⟩ :=
      C6_append_frame_amended.2.1 pjDemoChain "d" 0 1 _ none rfl
    exact ⟨_, none, rfl, by rw [h4]; rfl, rfl⟩

namespace Main

open Js

/-- All records of the chain in chain order: each block's transaction list,
flattened (a block that stores several records contributes all of them; a
block without a `"transactions"` key contributes nothing). -/
def collectAll : List Block → List Json
  | [] => []
  | b :: rest => block_transactions b.data ++ collectAll rest

/-- The flattened records of a state's chain. -/
def allRecords (s : SmartCityBlockchain) : List Json := collectAll s.chain

theorem collectByType_eq_filter (blocks : List Block) (rt : String) :
    collectByType blocks rt = (collectAll blocks).filter (fun tx => tx_matches tx rt) := by
  induction blocks with
  | nil => rfl
  | cons b rest ih => simp [collectByType, collectAll, ih, List.filter_append]

/-- Does the data dictionary have a `"transactions"` key? -/
def has_transactions (d : Json) : Bool :=
  match d with
  | Json.obj entries => (lookupKey entries "transactions").isSome
  | _ => false

theorem block_transactions_eq_nil (d : Json) (h : has_transactions d = false) :
    block_transactions d = [] := by
  cases d with
  | obj entries =>
      cases hk : lookupKey entries "transactions" with
      | none => simp [block_transactions, hk]
      | some v => rw [has_transactions, hk] at h; cases h
  | num n => rfl
  | str s => rfl
  | arr l => rfl

theorem mem_collectByType {tx : Json} {blocks : List Block} {rt : String}
    (h : tx ∈ collectByType blocks rt) :
    ∃ b ∈ blocks, tx ∈ block_transactions b.data := by
  induction blocks with
  | nil => simp [collectByType] at h
  | cons b rest ih =>
      rw [collectByType] at h
      rcases List.mem_append.mp h with h | h
      · exact ⟨b, List.mem_cons_self b rest, List.mem_of_mem_filter h⟩
      · obtain ⟨c, hc, hm⟩ := ih h
        exact ⟨c, List.mem_cons_of_mem b hc, hm⟩

theorem txShaped_ne_genesis_data {tx : Json} (h : TxShaped tx) :
    tx ≠ Json.obj [("message", Json.str "Genesis Block for Smart City")] := by
  obtain ⟨sender, record_type, details, ts, rfl⟩ := h
  intro hcontra
  simp [pendingRecord] at hcontra

end Main

/-- Claim C9.  For every chain state and type string, the query equals the
type-filter over the flattened records of all blocks, in chain order (the
result is a sublist of the record stream), and a record is returned exactly
when it occurs in some block's transaction list and its `"type"` field
matches.  The embedded query is a pure function of the state, so it cannot
mutate the chain and repeated calls agree definitionally. -/
theorem C9_query_filter (s : Main.SmartCityBlockchain) (record_type : String) :
    Main.get_block_data_by_type s record_type
        = (Main.allRecords s).filter (fun tx => Main.tx_matches tx record_type) ∧
    (Main.get_block_data_by_type s record_type).Sublist (Main.allRecords s) ∧
    (∀ tx, tx ∈ Main.get_block_data_by_type s record_type ↔
      tx ∈ Main.allRecords s ∧ Main.tx_matches tx record_type = true) := by
  have h := Main.collectByType_eq_filter s.chain record_type
  refine ⟨h, ?_, ?_⟩
  · rw [Main.get_block_data_by_type, h]
    exact List.filter_sublist _
  · intro tx
    rw [Main.get_block_data_by_type, h]
    simp [List.mem_filter, Main.allRecords]

/-- A reachable two-block state used as a concrete witness input: genesis,
one `add_data` with record type `"t"`, one mined block. -/
def mainDemo2 : Main.SmartCityBlockchain :=
  ⟨[Main.genesis_block 0,
    Main.mkBlock 1 0
      (Js.Json.obj [("transactions", Js.Json.arr [Main.pendingRecord "s" "t" (Js.Json.num 0) 0])])
      (Main.genesis_block 0).hash], []⟩

theorem mainDemo2_reachable : Main.Reachable mainDemo2 :=
  Main.Reachable.mine_block (Main.add_data (Main.init 0) "s" "t" (Js.Json.num 0) 0) 0
    mainDemo2 _
    (Main.Reachable.add_data (Main.init 0) "s" "t" (Js.Json.num 0) 0 (Main.Reachable.init 0))
    rfl

/-- Witness for C9 at a concrete mined state. -/
theorem C9_query_filter_witness :
    Main.get_block_data_by_type mainDemo2 "t"
        = (Main.allRecords mainDemo2).filter (fun tx => Main.tx_matches tx "t") :=
  (C9_query_filter mainDemo2 "t").1

/-- Claim C10.  The query never returns a record from a block whose data lacks
the `"transactions"` key (filtering those blocks away changes nothing), and on
reachable states the genesis block contributes nothing: the query equals the
scan of the tail of the chain, and the genesis payload itself never occurs in
any result. -/
theorem C10_query_skips_no_transactions :
    (∀ (blocks : List Main.Block) (rt : String),
      Main.collectByType blocks rt
        = Main.collectByType (blocks.filter (fun b => Main.has_transactions b.data)) rt) ∧
    (∀ s : Main.SmartCityBlockchain, Main.Reachable s → ∀ rt : String,
      Main.get_block_data_by_type s rt = Main.collectByType s.chain.tail rt ∧
      ∀ tx ∈ Main.get_block_data_by_type s rt, tx ≠ (s.chain.getD 0 Main.dfltB).data) := by
  constructor
  · intro blocks rt
    induction blocks with
    | nil => rfl
    | cons b rest ih =>
        by_cases hb : Main.has_transactions b.data
        · simp [Main.collectByType, List.filter_cons, hb, ih]
        · rw [List.filter_cons]
          simp only [Bool.not_eq_true] at hb
          rw [hb]
          simp only [Bool.false_eq_true, if_false]
          rw [Main.collectByType, Main.block_transactions_eq_nil b.data hb]
          simpa using ih
  · intro s hs rt
    obtain ⟨ts0, rest, hchain, _, hshape, _⟩ := Main.reachable_inv hs
    have hgen : Main.block_transactions (Main.genesis_block ts0).data = [] := rfl
    have hquery : Main.get_block_data_by_type s rt = Main.collectByType rest rt := by
      rw [Main.get_block_data_by_type, hchain, Main.collectByType, hgen]
      simp
    constructor
    · rw [hquery, hchain]; rfl
    · intro tx htx
      rw [hquery] at htx
      obtain ⟨b, hb, hm⟩ := Main.mem_collectByType htx
      obtain ⟨txs, hdata, htxs⟩ := hshape b hb
      rw [hdata] at hm
      have hm' : tx ∈ txs := by
        simpa [Main.block_transactions, Main.lookupKey] using hm
      rw [hchain]
      simpa [Main.genesis_block, Main.mkBlock]
        using Main.txShaped_ne_genesis_data (htxs tx hm')

/-- Witness for C10 at the concrete mined state: the genesis block
contributes nothing to the query. -/
theorem C10_query_skips_no_transactions_witness :
    Main.get_block_data_by_type mainDemo2 "t"
        = Main.collectByType mainDemo2.chain.tail "t" :=
  ((C10_query_skips_no_transactions.2 mainDemo2 mainDemo2_reachable) "t").1

namespace Js

/-- Congruence for object serialization through the rendered entries. -/
theorem dumps_obj_congr {e₁ e₂ : List (String × Json)}
    (h : renderEntries e₁ = renderEntries e₂) :
    dumps (Json.obj e₁) = dumps (Json.obj e₂) := by
  simp only [dumps, h]

end Js

/-- Claim C5.  The block digest functions are deterministic — blocks with
identical field values hash identically, whatever their stored digests — and
hashing is independent of the insertion order of the payload mapping: two
payload dictionaries holding the same key-value pairs in different orders
give the same digest (`sort_keys=True` canonicalization), shown here for
`main.py`'s `calculate_hash`; `prajwal.py`'s `generate_hash` hashes the same
way and its determinism is included. -/
theorem C5_digest_canonical :
    (∀ b₁ b₂ : Main.Block, b₁.index = b₂.index → b₁.timestamp = b₂.timestamp →
      b₁.data = b₂.data → b₁.previous_hash = b₂.previous_hash →
      b₁.calculate_hash = b₂.calculate_hash) ∧
    (∀ (index ts : Nat) (prev : String) (e₁ e₂ : List (String × Js.Json)),
      e₁.Perm e₂ → (e₁.map Prod.fst).Nodup →
      Main.hashFields index ts (Js.Json.obj e₁) prev
        = Main.hashFields index ts (Js.Json.obj e₂) prev) ∧
    (∀ b₁ b₂ : Prajwal.CryptoBlock, b₁.block_id = b₂.block_id →
      b₁.prev_block_hash = b₂.prev_block_hash → b₁.created_time = b₂.created_time →
      b₁.block_data = b₂.block_data → b₁.nonce = b₂.nonce →
      b₁.generate_hash = b₂.generate_hash) := by
  refine ⟨?_, ?_, ?_⟩
  · intro b₁ b₂ h1 h2 h3 h4
    rw [Main.Block.calculate_hash, Main.Block.calculate_hash, h1, h2, h3, h4]
  · intro index ts prev e₁ e₂ hperm hnd
    have hd : Js.dumps (Js.Json.obj e₁) = Js.dumps (Js.Json.obj e₂) :=
      Js.dumps_obj_perm hperm hnd
    rw [Main.hashFields, Main.hashFields]
    have houter : Js.dumps (Js.Json.obj
        [("index", Js.Json.num index), ("timestamp", Js.Json.num ts),
         ("data", Js.Json.obj e₁), ("previous_hash", Js.Json.str prev)])
        = Js.dumps (Js.Json.obj
        [("index", Js.Json.num index), ("timestamp", Js.Json.num ts),
         ("data", Js.Json.obj e₂), ("previous_hash", Js.Json.str prev)]) := by
      apply Js.dumps_obj_congr
      simp [Js.renderEntries, hd]
    rw [houter]
  · intro b₁ b₂ h1 h2 h3 h4 h5
    rw [Prajwal.CryptoBlock.generate_hash, Prajwal.CryptoBlock.generate_hash,
      h1, h2, h3, h4, h5]

/-- Witness for C5: the two insertion orders of `{"a": 1, "b": 2}` hash
identically inside a block. -/
theorem C5_digest_canonical_witness :
    Main.hashFields 0 0 (Js.Json.obj [("a", Js.Json.num 1), ("b", Js.Json.num 2)]) "0"
      = Main.hashFields 0 0 (Js.Json.obj [("b", Js.Json.num 2), ("a", Js.Json.num 1)]) "0" :=
  C5_digest_canonical.2.1 0 0 "0"
    [("a", Js.Json.num 1), ("b", Js.Json.num 2)]
    [("b", Js.Json.num 2), ("a", Js.Json.num 1)]
    (List.Perm.swap ("b", Js.Json.num 2) ("a", Js.Json.num 1) [])
    (by decide)

namespace Main

open Js

/-- A single-field modification of a block: the five fields of the claim,
restricted to the four fields a `main.py` `Block` actually has (there is no
nonce field in `main.py`). -/
inductive Tamper where
  | tindex (n : Nat)
  | tstamp (t : Nat)
  | tdata (d : Json)
  | tprev (p : String)

/-- Apply the modification, leaving the stored digest untouched (tampering
without recomputing). -/
def applyTamper : Tamper → Block → Block
  | Tamper.tindex n, b => { b with index := n }
  | Tamper.tstamp t, b => { b with timestamp := t }
  | Tamper.tdata d, b => { b with data := d }
  | Tamper.tprev p, b => { b with previous_hash := p }

/-- The new value differs from the old one. -/
def tamperChanges : Tamper → Block → Prop
  | Tamper.tindex n, b => n ≠ b.index
  | Tamper.tstamp t, b => t ≠ b.timestamp
  | Tamper.tdata d, b => d ≠ b.data
  | Tamper.tprev p, b => p ≠ b.previous_hash

/-- Overwrite one field of block `k` in place. -/
def tamperChain (chain : List Block) (k : Nat) (t : Tamper) : List Block :=
  chain.set k (applyTamper t (chain.getD k dfltB))

theorem applyTamper_hash (t : Tamper) (b : Block) : (applyTamper t b).hash = b.hash := by
  cases t <;> rfl

theorem hashFields_length (i t : Nat) (d : Json) (p : String) :
    (hashFields i t d p).length = 64 := Crypto.sha256_length _

/-- The string of `n` letters `a`. -/
def aStr (n : Nat) : String := String.mk (List.replicate n 'a')

/-- The mined-block data of the `n`-th member of an infinite family of
reachable two-block chains (one `add_data` with details `aStr n`, then one
`mine_block`, all timestamps 0). -/
def famData (n : Nat) : Json :=
  Json.obj [("transactions", Json.arr [pendingRecord "s" "t" (Json.str (aStr n)) 0])]

/-- Block 1 of the `n`-th family chain. -/
def famBlock (n : Nat) : Block := mkBlock 1 0 (famData n) (genesis_block 0).hash

/-- The `n`-th family state, reachable below. -/
def famState (n : Nat) : SmartCityBlockchain := ⟨[genesis_block 0, famBlock n], []⟩

/-- The exact string hashed to produce `(famBlock n).hash`. -/
def famSerial (n : Nat) : String :=
  dumps (Json.obj
    [("index", Json.num 1), ("timestamp", Json.num 0),
     ("data", famData n), ("previous_hash", Json.str (genesis_block 0).hash)])

theorem famState_reachable (n : Nat) : Reachable (famState n) :=
  Reachable.mine_block (add_data (init 0) "s" "t" (Json.str (aStr n)) 0) 0
    (famState n) (famBlock n)
    (Reachable.add_data (init 0) "s" "t" (Json.str (aStr n)) 0 (Reachable.init 0))
    rfl

theorem famData_inj {n m : Nat} (h : famData n = famData m) : n = m := by
  have h' : aStr n = aStr m := by
    simpa [famData, pendingRecord] using h
  have h3 : List.replicate n 'a' = List.replicate m 'a' := congrArg String.data h'
  simpa using congrArg List.length h3

end Main

/-- Claim C3 as stated: on every reachable chain, changing any single field of
block `k ≥ 1` to a different value, without recomputing the stored digest,
makes the validator return `False` with earliest failing index `k`. -/
def C3Statement : Prop :=
  ∀ s : Main.SmartCityBlockchain, Main.Reachable s →
    ∀ k, 1 ≤ k → k < s.chain.length →
    ∀ t : Main.Tamper, Main.tamperChanges t (s.chain.getD k Main.dfltB) →
      Main.is_chain_valid (Main.tamperChain s.chain k t) = false ∧
      ∃ v, Main.firstViolation (Main.tamperChain s.chain k t) = some (k, v)

/-- Counterexample to C3 as stated: SHA-256 digests form a finite set while
payloads do not, so by the pigeonhole principle two distinct family payloads
collide; overwriting block 1's data field with the colliding other payload is
a change the validator cannot see — it still returns `True`.  (No explicit
collision is known, so the refutation is nonconstructive, but the claim as a
universal statement is false.) -/
theorem C3_claim_false : ¬ C3Statement := by
  intro H
  obtain ⟨n, m, hnm, hf⟩ := Finite.exists_ne_map_eq_of_infinite
    (fun n : ℕ => (⟨Crypto.sha256Nat (Main.famSerial n), Crypto.sha256Nat_lt _⟩ : Fin (2 ^ 256)))
  have hnat : Crypto.sha256Nat (Main.famSerial n) = Crypto.sha256Nat (Main.famSerial m) :=
    congrArg Fin.val hf
  have hcol : (Main.famBlock n).hash = (Main.famBlock m).hash := by
    show Crypto.sha256 (Main.famSerial n) = Crypto.sha256 (Main.famSerial m)
    rw [Crypto.sha256, Crypto.sha256, hnat]
  have hch : Main.tamperChanges (Main.Tamper.tdata (Main.famData m))
      ((Main.famState n).chain.getD 1 Main.dfltB) := by
    show Main.famData m ≠ Main.famData n
    intro h
    exact hnm (Main.famData_inj h).symm
  have hres := H (Main.famState n) (Main.famState_reachable n) 1 (le_refl 1)
    (by simp [Main.famState]) (Main.Tamper.tdata (Main.famData m)) hch
  have hvalid : Main.is_chain_valid
      (Main.tamperChain (Main.famState n).chain 1
        (Main.Tamper.tdata (Main.famData m))) = true := by
    have h1 : ({ Main.famBlock n with data := Main.famData m } : Main.Block).hash
        = ({ Main.famBlock n with data := Main.famData m } : Main.Block).calculate_hash := by
      show (Main.famBlock n).hash
          = Main.hashFields 1 0 (Main.famData m) (Main.genesis_block 0).hash
      rw [hcol]
      rfl
    show Main.validFrom (Main.genesis_block 0)
      [{ Main.famBlock n with data := Main.famData m }] = true
    rw [Main.validFrom_iff_GoodFrom]
    exact ⟨⟨h1, rfl⟩, trivial⟩
  rw [hres.1] at hvalid
  cases hvalid

/-- Claim C3, amended: as stated, under the additional (collision-freeness)
proviso forced by the counterexample — the tampered block's recomputed digest
must differ from its stored digest, which automatically holds for no field
only; a `previous_digest` change is detected even under a digest collision,
by the linkage check. -/
theorem C3_tamper_detection_amended (s : Main.SmartCityBlockchain) (hs : Main.Reachable s)
    (k : Nat) (hk1 : 1 ≤ k) (hk : k < s.chain.length) (t : Main.Tamper)
    (hch : Main.tamperChanges t (s.chain.getD k Main.dfltB))
    (hcase : (Main.applyTamper t (s.chain.getD k Main.dfltB)).calculate_hash
        ≠ (s.chain.getD k Main.dfltB).hash ∨ ∃ p, t = Main.Tamper.tprev p) :
    Main.is_chain_valid (Main.tamperChain s.chain k t) = false ∧
      ∃ v, Main.firstViolation (Main.tamperChain s.chain k t) = some (k, v) := by
  have hvalid := Main.reachable_valid hs
  have hcheck := (Main.is_chain_valid_iff s.chain).mp hvalid
  have hlen : (Main.tamperChain s.chain k t).length = s.chain.length := by
    simp [Main.tamperChain]
  have hgetk : (Main.tamperChain s.chain k t).getD k Main.dfltB
      = Main.applyTamper t (s.chain.getD k Main.dfltB) := by
    simp [Main.tamperChain, List.getD, List.getElem?_set_self, hk]
  have hgetne : ∀ j, j ≠ k →
      (Main.tamperChain s.chain k t).getD j Main.dfltB = s.chain.getD j Main.dfltB := by
    intro j hj
    have hkj : k ≠ j := fun h => hj h.symm
    simp [Main.tamperChain, List.getD, List.getElem?_set_ne hkj]
  have hbad : ¬ Main.checkAt (Main.tamperChain s.chain k t) k := by
    intro hc
    unfold Main.checkAt at hc
    obtain ⟨c1, c2⟩ := hc
    rw [hgetk] at c1 c2
    rw [Main.applyTamper_hash] at c1
    rcases hcase with hne | ⟨p, rfl⟩
    · exact hne c1.symm
    · have hk1' : k - 1 ≠ k := by omega
      rw [hgetne (k - 1) hk1'] at c2
      have hc2 : p = (s.chain.getD (k - 1) Main.dfltB).hash := c2
      have horig := hcheck k hk1 hk
      exact hch (hc2.trans horig.2.symm)
  have hpre : ∀ j, 1 ≤ j → j < k → Main.checkAt (Main.tamperChain s.chain k t) j := by
    intro j h1 hj
    have hj' : j ≠ k := by omega
    have hj1 : j - 1 ≠ k := by omega
    have horig := hcheck j h1 (by omega)
    unfold Main.checkAt at horig ⊢
    rw [hgetne j hj', hgetne (j - 1) hj1]
    exact horig
  exact Main.firstViolation_eq_of _ k hk1 (by rw [hlen]; exact hk) hbad hpre

/-- Witness for the amended C3: overwriting `previous_hash` of block 1 of a
concrete reachable chain with `"x"` (which differs from the real 64-character
digest by its length) is reported at index 1. -/
theorem C3_tamper_detection_amended_witness :
    Main.is_chain_valid
        (Main.tamperChain (Main.famState 0).chain 1 (Main.Tamper.tprev "x")) = false ∧
      ∃ v, Main.firstViolation
        (Main.tamperChain (Main.famState 0).chain 1 (Main.Tamper.tprev "x")) = some (1, v) :=
  C3_tamper_detection_amended (Main.famState 0) (Main.famState_reachable 0) 1 (le_refl 1)
    (by simp [Main.famState]) (Main.Tamper.tprev "x")
    (by
      show "x" ≠ ((Main.famState 0).chain.getD 1 Main.dfltB).previous_hash
      intro hcontra
      have hlen := congrArg String.length hcontra
      rw [show ((Main.famState 0).chain.getD 1 Main.dfltB).previous_hash
          = Main.hashFields 0 0
              (Js.Json.obj [("message", Js.Json.str "Genesis Block for Smart City")]) "0"
          from rfl, Main.hashFields_length] at hlen
      exact absurd hlen (by decide))
    (Or.inr ⟨"x", rfl⟩)
